import Mathlib

/-!
Verification of the record-linkage core of the property-dashboard repository
(`src/utils/data_processing.py`), as a shallow embedding in Lean 4.

Strings are modelled as Lean `String` / `List Char` restricted to ASCII
behaviour of the Python string methods used by the source (`strip`, `upper`,
`lower`, `title`, `zfill`, `split`, `isdigit`) and of the regular expressions
appearing in the source (`\d+`, `\D`, `\s+`, `[^\w\s]`, and the
word-boundary-anchored abbreviation patterns of `normalize_address`).
Numeric cells are modelled as `Option Rat` (a `none` models a pandas null);
tables are lists of row structures.  `rapidfuzz`'s `fuzz.ratio` (normalized
indel similarity on a 0-100 scale) is modelled exactly over `Rat`.
-/

namespace PropertyDashboard

/-- Whitespace characters of Python's `str.strip` / `\s` (ASCII). -/
def isPySpace (c : Char) : Bool :=
  c = ' ' || c = '\t' || c = '\n' || c = '\r' || c = '\x0b' || c = '\x0c'

/-- Word characters of Python's `\w` (ASCII): letters, digits, underscore. -/
def isWordChar (c : Char) : Bool :=
  c.isAlphanum || c = '_'

/-- Association table for ASCII lower-casing (Python `str.lower`, ASCII part). -/
def lowerTable : List (Char × Char) :=
  [('A','a'),('B','b'),('C','c'),('D','d'),('E','e'),('F','f'),('G','g'),
   ('H','h'),('I','i'),('J','j'),('K','k'),('L','l'),('M','m'),('N','n'),
   ('O','o'),('P','p'),('Q','q'),('R','r'),('S','s'),('T','t'),('U','u'),
   ('V','v'),('W','w'),('X','x'),('Y','y'),('Z','z')]

/-- Association table for ASCII upper-casing (Python `str.upper`, ASCII part). -/
def upperTable : List (Char × Char) :=
  [('a','A'),('b','B'),('c','C'),('d','D'),('e','E'),('f','F'),('g','G'),
   ('h','H'),('i','I'),('j','J'),('k','K'),('l','L'),('m','M'),('n','N'),
   ('o','O'),('p','P'),('q','Q'),('r','R'),('s','S'),('t','T'),('u','U'),
   ('v','V'),('w','W'),('x','X'),('y','Y'),('z','Z')]

/-- Lower-case one ASCII character. -/
def asciiLower (c : Char) : Char :=
  match lowerTable.lookup c with
  | some d => d
  | none => c

/-- Upper-case one ASCII character. -/
def asciiUpper (c : Char) : Char :=
  match upperTable.lookup c with
  | some d => d
  | none => c

/-- Python `str.lower` on a character list. -/
def pyLower (cs : List Char) : List Char := cs.map asciiLower

/-- Python `str.upper` on a character list. -/
def pyUpper (cs : List Char) : List Char := cs.map asciiUpper

/-- Python `str.strip()`: drop leading and trailing whitespace. -/
def pyStrip (cs : List Char) : List Char :=
  (((cs.dropWhile isPySpace).reverse).dropWhile isPySpace).reverse

/-- Substring test: does `pat` occur contiguously in `cs` (Python `in`)? -/
def containsSub (pat : List Char) : List Char → Bool
  | [] => pat.isEmpty
  | c :: cs => pat.isPrefixOf (c :: cs) || containsSub pat cs

/-- Auxiliary scanner for `digitRuns`; `cur` holds the current digit run,
reversed. -/
def digitRunsAux : List Char → Option (List Char) → List (List Char)
  | [], none => []
  | [], some run => [run.reverse]
  | c :: cs, none =>
    if c.isDigit then digitRunsAux cs (some [c]) else digitRunsAux cs none
  | c :: cs, some run =>
    if c.isDigit then digitRunsAux cs (some (c :: run))
    else run.reverse :: digitRunsAux cs none

/-- Python `re.findall(r'\d+', s)`: the maximal runs of ASCII digits. -/
def digitRuns (cs : List Char) : List (List Char) := digitRunsAux cs none

/-- Padding step of `zfill`: left-pad with `'0'`, keeping a leading sign
character in front of the padding. -/
def zfillPad (width : Nat) : List Char → List Char
  | [] => List.replicate width '0'
  | c :: rest =>
    if c = '+' || c = '-' then
      c :: (List.replicate (width - (c :: rest).length) '0' ++ rest)
    else
      List.replicate (width - (c :: rest).length) '0' ++ (c :: rest)

/-- Python `str.zfill(width)`. -/
def zfill (width : Nat) (s : List Char) : List Char :=
  if width ≤ s.length then s else zfillPad width s

/-- Embedding of `DataProcessor.normalize_postal_code`
(`src/utils/data_processing.py` lines 48-78).  A `none` input models a pandas
null (`pd.isna`). -/
def normalize_postal_code (postal_code : Option String) : Option String :=
  match postal_code with
  | none => none
  | some pc =>
    let postal_str := pyUpper (pyStrip pc.toList)
    let masked : Option (List Char) :=
      if containsSub ['X', 'X'] postal_str || postal_str.contains 'X' then
        (digitRuns postal_str).head?
      else none
    match masked with
    | some run => some ⟨zfill 5 (run.take 5)⟩
    | none =>
      let digits_only := postal_str.filter Char.isDigit
      if 5 ≤ digits_only.length then some ⟨digits_only.take 5⟩
      else if 0 < digits_only.length then some ⟨zfill 5 digits_only⟩
      else none

/-- Fuel-indexed longest-common-subsequence length (used to express the
normalized indel similarity of `rapidfuzz.fuzz.ratio`). -/
def lcsLen : Nat → List Char → List Char → Nat
  | 0, _, _ => 0
  | _ + 1, [], _ => 0
  | _ + 1, _ :: _, [] => 0
  | fuel + 1, a :: as, b :: bs =>
    if a = b then 1 + lcsLen fuel as bs
    else max (lcsLen fuel (a :: as) bs) (lcsLen fuel as (b :: bs))

/-- Model of `rapidfuzz.fuzz.ratio`: normalized indel similarity on a 0-100
scale, computed exactly over `Rat`.  The indel distance of `a` and `b` is
`a.length + b.length - 2 * lcs`, so the similarity is
`100 * 2 * lcs / (a.length + b.length)`; two empty strings score 100. -/
def simScore (a b : String) : Rat :=
  let la := a.toList.length
  let lb := b.toList.length
  if la + lb = 0 then 100
  else (100 * (2 * lcsLen (la + lb) a.toList b.toList) : Nat) / ((la + lb : Nat) : Rat)

/-- Model of `rapidfuzz.process.extractOne` with `scorer=fuzz.ratio` and a
`score_cutoff`: scan the choices in order, keeping the first choice attaining
the maximal score; return `none` when no score reaches the cutoff. -/
def extractOneAux (q : String) (cutoff : Rat) :
    Option (String × Rat) → List String → Option (String × Rat)
  | best, [] => best
  | best, c :: cs =>
    let s := simScore q c
    match best with
    | none =>
      if cutoff ≤ s then extractOneAux q cutoff (some (c, s)) cs
      else extractOneAux q cutoff none cs
    | some (b, bs) =>
      if bs < s then extractOneAux q cutoff (some (c, s)) cs
      else extractOneAux q cutoff (some (b, bs)) cs

/-- The `process.extractOne(postal_str, valid_zips, scorer=fuzz.ratio,
score_cutoff=threshold)` call of `find_best_match`. -/
def extractOne (q : String) (choices : List String) (cutoff : Rat) :
    Option (String × Rat) :=
  extractOneAux q cutoff none choices

/-- Embedding of the inner `find_best_match` closure of
`DataProcessor.fuzzy_match_postal_codes` (`src/utils/data_processing.py`
lines 239-261). -/
def find_best_match (valid_zips : List String) (threshold : Rat)
    (postal_code : Option String) : Option String :=
  match postal_code with
  | none => none
  | some postal_str =>
    if postal_str ∈ valid_zips then some postal_str
    else
      match extractOne postal_str valid_zips threshold with
      | some result => some result.1
      | none => none

/-- Maximum of a list of rationals (`none` on the empty list). -/
def listMax : List Rat → Option Rat
  | [] => none
  | x :: xs =>
    match listMax xs with
    | none => some x
    | some m => some (max x m)

/-- One abbreviation-expansion rule of `normalize_address`: the regex
`\b<lit>\.?\b` (with `optDot = true`) or `\b<lit>\b` (with `optDot = false`),
optionally also accepting a trailing `s` (`optS`, for the `junction`/`fork`
rules whose pattern is `\b<lit>\.?s?\b`), replaced by `repl`. -/
structure Rule where
  lit : List Char
  optDot : Bool
  optS : Bool
  repl : List Char
deriving DecidableEq, Repr

/-- The ordered replacement table of `normalize_address`
(`src/utils/data_processing.py` lines 107-134). -/
def addressRules : List Rule :=
  [⟨['s','t'], true, false, ['s','t','r','e','e','t']⟩,
   ⟨['a','v','e'], true, false, ['a','v','e','n','u','e']⟩,
   ⟨['a','v','e','n','u','e'], false, false, ['a','v','e','n','u','e']⟩,
   ⟨['s','t','r','a','v','e','n','u','e'], false, false, ['s','t','r','e','e','t']⟩,
   ⟨['b','l','v','d'], true, false, ['b','o','u','l','e','v','a','r','d']⟩,
   ⟨['r','d'], true, false, ['r','o','a','d']⟩,
   ⟨['d','r'], true, false, ['d','r','i','v','e']⟩,
   ⟨['l','n'], true, false, ['l','a','n','e']⟩,
   ⟨['c','t'], true, false, ['c','o','u','r','t']⟩,
   ⟨['p','l'], true, false, ['p','l','a','c','e']⟩,
   ⟨['p','k','w','y'], true, false, ['p','a','r','k','w','a','y']⟩,
   ⟨['c','i','r'], true, false, ['c','i','r','c','l','e']⟩,
   ⟨['s','q'], true, false, ['s','q','u','a','r','e']⟩,
   ⟨['s','q','u','a','r','e','s'], false, false, ['s','q','u','a','r','e']⟩,
   ⟨['j','u','n','c','t','i','o','n'], true, true, ['j','u','n','c','t','i','o','n']⟩,
   ⟨['t','r','a','c','k'], false, false, ['t','r','a','c','t']⟩,
   ⟨['w','a','l','k'], false, false, ['w','a','l','k']⟩,
   ⟨['b','y','p','a','s','s'], false, false, ['b','y','p','a','s','s']⟩,
   ⟨['r','a','d','i','a','l'], false, false, ['r','a','d','i','a','l']⟩,
   ⟨['f','o','r','t'], false, false, ['f','o','r','t']⟩,
   ⟨['l','i','g','h','t'], false, false, ['l','i','g','h','t']⟩,
   ⟨['s','t','r','e','a','m'], false, false, ['s','t','r','e','a','m']⟩,
   ⟨['v','i','l','l','a','g','e'], false, false, ['v','i','l','l','a','g','e']⟩,
   ⟨['k','n','o','l','l'], false, false, ['k','n','o','l','l']⟩,
   ⟨['k','e','y'], false, false, ['k','e','y']⟩,
   ⟨['f','o','r','k'], true, true, ['f','o','r','k']⟩]

/-- Word-boundary test used before the first literal character of a pattern:
the preceding character (if any) must not be a word character. -/
def startOk : Option Char → Bool
  | none => true
  | some c => !isWordChar c

/-- Word-boundary test after a word character: the next character (if any)
must not be a word character. -/
def endOk : List Char → Bool
  | [] => true
  | c :: _ => !isWordChar c

/-- Word-boundary test after a consumed `'.'` (a non-word character): the
next character must exist and be a word character. -/
def boundAfterDot : List Char → Bool
  | [] => false
  | c :: _ => isWordChar c

/-- Greedy match of the pattern tail `s?\b` after `k` characters already
consumed past the literal: try the optional `s` first, then the bare
boundary (`boundAfterDot` when a `'.'` was just consumed, `endOk`
otherwise). -/
def sArm (optS : Bool) (u : List Char) (k : Nat) (afterDot : Bool) : Option Nat :=
  (match u with
   | 's' :: v => if optS && endOk v then some (k + 1) else none
   | _ => none) <|>
  (if afterDot then (if boundAfterDot u then some k else none)
   else (if endOk u then some k else none))

/-- Greedy backtracking match of the pattern tail `\.?s?\b` (with the
optional parts enabled per rule) against `rest`; returns the number of extra
characters consumed.  Backtracking order: dot+s, dot, s, empty. -/
def tailMatch (optDot optS : Bool) (rest : List Char) : Option Nat :=
  (match rest with
   | '.' :: v => if optDot then sArm optS v 1 true else none
   | _ => none) <|>
  sArm optS rest 0 false

/-- Attempt to match one rule's full pattern at the head of `cs`, where
`prev` is the character just before `cs` in the scanned string; returns the
total number of characters consumed. -/
def matchFrom (r : Rule) (prev : Option Char) (cs : List Char) : Option Nat :=
  if startOk prev && r.lit.isPrefixOf cs then
    match tailMatch r.optDot r.optS (cs.drop r.lit.length) with
    | some extra => some (r.lit.length + extra)
    | none => none
  else none

/-- Fuel-indexed scanner of `re.sub` for one rule: scan left to right,
replacing leftmost non-overlapping matches; matching resumes after the
matched text of the original string (the replacement is not rescanned), so
the boundary context `prev` is the last matched original character. -/
def subScanF (r : Rule) : Nat → Option Char → List Char → List Char
  | 0, _, _ => []
  | _ + 1, _, [] => []
  | fuel + 1, prev, c :: cs =>
    match matchFrom r prev (c :: cs) with
    | some n =>
      r.repl ++ subScanF r fuel (((c :: cs).take n).getLast?) ((c :: cs).drop n)
    | none => c :: subScanF r fuel (some c) cs

/-- Application of one `re.sub(pattern, repl, addr)` call of
`normalize_address`; the fuel `cs.length` suffices because every match
consumes at least the nonempty literal. -/
def applyRule (r : Rule) (cs : List Char) : List Char :=
  subScanF r cs.length none cs

/-- Auxiliary scanner for `re.sub(r'\s+', ' ', ...)`: `inRun` records whether
the previous character was whitespace (so the run already emitted its one
space). -/
def collapseWsAux : List Char → Bool → List Char
  | [], _ => []
  | c :: cs, inRun =>
    if isPySpace c then
      (if inRun then collapseWsAux cs true else ' ' :: collapseWsAux cs true)
    else c :: collapseWsAux cs false

/-- Python `re.sub(r'\s+', ' ', s)`: collapse whitespace runs to one space. -/
def collapseWs (cs : List Char) : List Char := collapseWsAux cs false

/-- Auxiliary scanner for Python `str.split()`: `acc` holds the current token
reversed. -/
def pySplitAux : List Char → List Char → List (List Char)
  | [], [] => []
  | [], acc => [acc.reverse]
  | c :: cs, acc =>
    if isPySpace c then
      (match acc with
       | [] => pySplitAux cs []
       | _ => acc.reverse :: pySplitAux cs [])
    else pySplitAux cs (c :: acc)

/-- Python `str.split()` with no argument: split on whitespace runs,
discarding empty tokens. -/
def pySplit (cs : List Char) : List (List Char) := pySplitAux cs []

/-- Python `str.isdigit` on a token (ASCII): nonempty and all digits. -/
def tokIsDigit (t : List Char) : Bool :=
  !t.isEmpty && t.all Char.isDigit

/-- Word-deduplication loop of `normalize_address`
(`src/utils/data_processing.py` lines 142-152): keep a word unless it was
seen before and is not purely numeric; every kept word is added to `seen`. -/
def dedupAux (seen : List (List Char)) : List (List Char) → List (List Char)
  | [] => []
  | w :: ws =>
    if w ∉ seen ∨ tokIsDigit w then
      w :: dedupAux (if w ∈ seen then seen else w :: seen) ws
    else dedupAux seen ws

/-- The word deduplication of `normalize_address`, with an empty initial
`seen` set. -/
def dedupWords (ws : List (List Char)) : List (List Char) := dedupAux [] ws

/-- Characters kept by `re.sub(r'[^\w\s]', '', ...)`. -/
def isWordOrSpace (c : Char) : Bool := isWordChar c || isPySpace c

/-- Embedding of `DataProcessor.normalize_address`
(`src/utils/data_processing.py` lines 80-152): lower-case and strip, collapse
whitespace, apply the abbreviation table in order, strip punctuation,
deduplicate tokens, and re-join with single spaces. -/
def normalize_address (address : Option String) : String :=
  match address with
  | none => ""
  | some a =>
    let addr0 := pyStrip (pyLower a.toList)
    let addr1 := collapseWs addr0
    let addr2 := addressRules.foldl (fun s r => applyRule r s) addr1
    let addr3 := addr2.filter isWordOrSpace
    ⟨List.intercalate [' '] (dedupWords (pySplit addr3))⟩

/-- Auxiliary scanner for Python `str.title` (ASCII): upper-case a letter that
follows a non-letter, lower-case a letter that follows a letter. -/
def pyTitleAux : List Char → Bool → List Char
  | [], _ => []
  | c :: cs, prevAlpha =>
    (if c.isAlpha then (if prevAlpha then asciiLower c else asciiUpper c) else c)
      :: pyTitleAux cs c.isAlpha

/-- Python `str.title` on a character list (ASCII). -/
def pyTitle (cs : List Char) : List Char := pyTitleAux cs false

/-- Round half-to-even at integer precision (numpy/pandas `round`). -/
def roundHalfEven (x : Rat) : Int :=
  let f : Int := ⌊x⌋
  let r : Rat := x - (f : Rat)
  if r < 1/2 then f
  else if 1/2 < r then f + 1
  else if f % 2 = 0 then f else f + 1

/-- Pandas `.round(2)` on an exact rational. -/
def round2 (x : Rat) : Rat := (roundHalfEven (x * 100) : Rat) / 100

/-- Raw demographics row (`demographics.csv` after `pd.read_csv`).  The
numeric cells are already `Option Rat`: `pd.to_numeric(..., errors='coerce')`
is modelled as the identity on such cells, a `none` being a null. -/
structure RawDemographicsRow where
  zip_code : String
  median_income : Option Rat
  school_rating : Option Rat
  crime_index : String
deriving DecidableEq, Repr

/-- Embedding of `DataProcessor.clean_demographics_data`
(`src/utils/data_processing.py` lines 191-213): zero-fill the zip code to 5,
coerce numerics (identity in this model), strip-and-title the crime index. -/
def clean_demographics_data (demographics_df : List RawDemographicsRow) :
    List RawDemographicsRow :=
  demographics_df.map fun r =>
    { r with
      zip_code := ⟨zfill 5 r.zip_code.toList⟩
      crime_index := ⟨pyTitle (pyStrip r.crime_index.toList)⟩ }

/-- Raw listings row (`listings.csv` after `pd.read_csv`). -/
structure RawListingRow where
  raw_address : String
  postal_code : Option String
  listing_price : Option Rat
  sq_ft : Option Rat
  bedrooms : Option Rat
deriving DecidableEq, Repr

/-- Cleaned listings row: normalized columns added, price and size non-null. -/
structure CleanListingRow where
  raw_address : String
  postal_code : Option String
  listing_price : Rat
  sq_ft : Rat
  bedrooms : Option Rat
  postal_code_normalized : Option String
  address_normalized : String
  price_per_sqft : Rat
deriving DecidableEq, Repr

/-- Listings row after `fuzzy_match_postal_codes` added `matched_zip_code`. -/
structure MatchedListingRow where
  base : CleanListingRow
  matched_zip_code : Option String
deriving DecidableEq, Repr

/-- Unified row produced by `merge_data`: the listing columns, the joined
demographic columns (`none` when unmatched), and the derived ratio column. -/
structure MergedRow where
  listing : MatchedListingRow
  demo : Option RawDemographicsRow
  price_to_income_ratio : Option Rat
deriving DecidableEq, Repr

/-- Embedding of `DataProcessor.fuzzy_match_postal_codes`
(`src/utils/data_processing.py` lines 215-267): `valid_zips` is the
first-occurrence deduplication of the demographic zip column (pandas
`unique()`), and each listing's normalized postal code is resolved by
`find_best_match`. -/
def fuzzy_match_postal_codes (listings_df : List CleanListingRow)
    (demographics_df : List RawDemographicsRow) (threshold : Rat) :
    List MatchedListingRow :=
  let valid_zips := (demographics_df.map (fun d => d.zip_code)).dedup
  listings_df.map fun l =>
    { base := l
      matched_zip_code := find_best_match valid_zips threshold l.postal_code_normalized }

/-- Row pairing of the pandas left merge on
`left_on='matched_zip_code', right_on='zip_code'`: each listing row is paired
with every matching demographic row, or with `none` when no key matches (a
null key matches nothing, since the right key column holds strings). -/
def mergePairs (listings_df : List MatchedListingRow)
    (demographics_df : List RawDemographicsRow) :
    List (MatchedListingRow × Option RawDemographicsRow) :=
  listings_df.flatMap fun l =>
    match demographics_df.filter (fun d => l.matched_zip_code = some d.zip_code) with
    | [] => [(l, none)]
    | d :: ds => (d :: ds).map fun d' => (l, some d')

/-- Embedding of `DataProcessor.merge_data`
(`src/utils/data_processing.py` lines 269-299): the left join plus the
derived `price_to_income_ratio` column. -/
def merge_data (listings_df : List MatchedListingRow)
    (demographics_df : List RawDemographicsRow) : List MergedRow :=
  (mergePairs listings_df demographics_df).map fun p =>
    { listing := p.1
      demo := p.2
      price_to_income_ratio :=
        p.2.bind fun d =>
          d.median_income.map fun mi => round2 (p.1.base.listing_price / mi) }

/-- Embedding of `DataProcessor.clean_listings_data`
(`src/utils/data_processing.py` lines 154-189): normalize the postal code and
address, coerce numerics (identity in this model), drop rows with a null
price or size, and compute `price_per_sqft`. -/
def clean_listings_data (listings_df : List RawListingRow) :
    List CleanListingRow :=
  listings_df.filterMap fun r =>
    match r.listing_price, r.sq_ft with
    | some price, some sqft =>
      some
        { raw_address := r.raw_address
          postal_code := r.postal_code
          listing_price := price
          sq_ft := sqft
          bedrooms := r.bedrooms
          postal_code_normalized := normalize_postal_code r.postal_code
          address_normalized := normalize_address (some r.raw_address)
          price_per_sqft := round2 (price / sqft) }
    | _, _ => none

/-- Embedding of `DataProcessor.load_data`
(`src/utils/data_processing.py` lines 32-46): a `none` file models a missing
CSV (`FileNotFoundError`), in which case both tables come back empty. -/
def load_data (demographics_file : Option (List RawDemographicsRow))
    (listings_file : Option (List RawListingRow)) :
    List RawDemographicsRow × List RawListingRow :=
  match demographics_file, listings_file with
  | some d, some l => (d, l)
  | _, _ => ([], [])

/-- Embedding of `DataProcessor.process_all_data`
(`src/utils/data_processing.py` lines 301-329): load, abort with an empty
result when either table is empty, else clean, match (threshold 80), merge. -/
def process_all_data (demographics_file : Option (List RawDemographicsRow))
    (listings_file : Option (List RawListingRow)) : List MergedRow :=
  let loaded := load_data demographics_file listings_file
  if loaded.1.isEmpty || loaded.2.isEmpty then []
  else
    let listings_clean := clean_listings_data loaded.2
    let demographics_clean := clean_demographics_data loaded.1
    let listings_matched :=
      fuzzy_match_postal_codes listings_clean demographics_clean 80
    merge_data listings_matched demographics_clean

/-- Action of one abbreviation rule on a whole word-character token: the
pattern `\b<lit>\.?s?\b` matches such a token exactly when the token is the
literal (or the literal plus `'s'` when `optS`). -/
def tokApply (r : Rule) (t : List Char) : List Char :=
  if t = r.lit ∨ (r.optS = true ∧ t = r.lit ++ ['s']) then r.repl else t

/-- Sequential action of a rule list on one token. -/
def foldTok (rs : List Rule) (t : List Char) : List Char :=
  rs.foldl (fun acc r => tokApply r acc) t

/-- A well-formed token: nonempty and made of word characters only. -/
def tokenLike (t : List Char) : Prop :=
  t ≠ [] ∧ ∀ c ∈ t, isWordChar c = true

/-- Well-formedness of a rule: nonempty all-word literal and replacement. -/
def ruleWf (r : Rule) : Prop :=
  r.lit ≠ [] ∧ (∀ c ∈ r.lit, isWordChar c = true) ∧
    r.repl ≠ [] ∧ (∀ c ∈ r.repl, isWordChar c = true)

/-- Modelled from the spec, for comparison with the deduplication loop of the
source: keep each token only on its first left-to-right occurrence, except
purely-numeric tokens, which are always kept; `pre` is the list of already
processed tokens. -/
def dedupSpec (pre : List (List Char)) : List (List Char) → List (List Char)
  | [] => []
  | w :: ws =>
    if tokIsDigit w ∨ w ∉ pre then w :: dedupSpec (pre ++ [w]) ws
    else dedupSpec (pre ++ [w]) ws

/-- Well-formedness of a token list as produced by `normalize_address`:
every token is nonempty, all word characters, and lower-case-fixed. -/
def tokensOk (ts : List (List Char)) : Prop :=
  ∀ t ∈ ts, (t ≠ [] ∧ ∀ c ∈ t, isWordChar c = true) ∧ ∀ c ∈ t, asciiLower c = c

/-- Every run produced by `digitRunsAux` is a nonempty string of digits,
provided the pending run (if any) is. -/
theorem digitRunsAux_spec (cs : List Char) : ∀ cur : Option (List Char),
    (∀ r, cur = some r → r ≠ [] ∧ ∀ c ∈ r, c.isDigit = true) →
    ∀ run ∈ digitRunsAux cs cur, run ≠ [] ∧ ∀ c ∈ run, c.isDigit = true := by
  induction cs with
  | nil =>
    intro cur hcur run hrun
    cases cur with
    | none => simp [digitRunsAux] at hrun
    | some r =>
      simp [digitRunsAux] at hrun
      subst hrun
      obtain ⟨hne, hdig⟩ := hcur r rfl
      refine ⟨by simpa using hne, ?_⟩
      intro c hc
      exact hdig c (List.mem_reverse.mp hc)
  | cons c cs ih =>
    intro cur hcur run hrun
    cases cur with
    | none =>
      by_cases hd : c.isDigit = true
      · simp [digitRunsAux, hd] at hrun
        refine ih (some [c]) ?_ run hrun
        intro r hr
        cases hr
        exact ⟨by simp, by simpa using hd⟩
      · simp [digitRunsAux, hd] at hrun
        exact ih none (by simp) run hrun
    | some r =>
      by_cases hd : c.isDigit = true
      · simp [digitRunsAux, hd] at hrun
        refine ih (some (c :: r)) ?_ run hrun
        intro r' hr'
        cases hr'
        obtain ⟨hne, hdig⟩ := hcur r rfl
        refine ⟨by simp, ?_⟩
        intro x hx
        rcases List.mem_cons.mp hx with h | h
        · subst h; exact hd
        · exact hdig x h
      · simp [digitRunsAux, hd] at hrun
        rcases hrun with h | h
        · subst h
          obtain ⟨hne, hdig⟩ := hcur r rfl
          refine ⟨by simpa using hne, ?_⟩
          intro x hx
          exact hdig x (List.mem_reverse.mp hx)
        · exact ih none (by simp) run h

/-- Every run found by `re.findall(r'\d+', ...)` is a nonempty digit string. -/
theorem digitRuns_spec (cs : List Char) :
    ∀ run ∈ digitRuns cs, run ≠ [] ∧ ∀ c ∈ run, c.isDigit = true :=
  digitRunsAux_spec cs none (by simp)

/-- Zero-filling a nonempty digit string of length at most `w` yields exactly
`w` digits. -/
theorem zfill_digits (w : Nat) (s : List Char) (hne : s ≠ [])
    (hdig : ∀ c ∈ s, c.isDigit = true) (hlen : s.length ≤ w) :
    (zfill w s).length = w ∧ ∀ c ∈ zfill w s, c.isDigit = true := by
  unfold zfill
  by_cases hge : w ≤ s.length
  · have hw : s.length = w := Nat.le_antisymm hlen hge
    simp only [hge, if_true]
    exact ⟨hw, hdig⟩
  · simp only [hge, if_false]
    match s, hne with
    | c :: rest, _ =>
      have hc : c.isDigit = true := hdig c (by simp)
      have h1 : c ≠ '+' := by
        intro h; rw [h] at hc; exact absurd hc (by decide)
      have h2 : c ≠ '-' := by
        intro h; rw [h] at hc; exact absurd hc (by decide)
      rw [zfillPad, if_neg (by simp [h1, h2] : ¬((c = '+' || c = '-') = true))]
      constructor
      · simp only [List.length_append, List.length_replicate]
        omega
      · intro x hx
        rcases List.mem_append.mp hx with h | h
        · have : x = '0' := List.eq_of_mem_replicate h
          subst this; decide
        · exact hdig x h

/-- C1: for every input (including absent), `normalize_postal_code` returns
either absent or a string of exactly 5 ASCII digits. -/
theorem norm_postal_shape (po : Option String) (s : String)
    (h : normalize_postal_code po = some s) :
    s.length = 5 ∧ ∀ c ∈ s.toList, c.isDigit = true := by
  cases po with
  | none => simp [normalize_postal_code] at h
  | some pc =>
    simp only [normalize_postal_code] at h
    split at h
    case h_1 run heq =>
      -- masked branch: first digit run, truncated to 5, zero-filled
      have hrun : run ∈ digitRuns (pyUpper (pyStrip pc.toList)) := by
        split at heq
        · exact List.mem_of_mem_head? heq
        · exact absurd heq (by simp)
      obtain ⟨hne, hdig⟩ := digitRuns_spec _ run hrun
      have htk_ne : run.take 5 ≠ [] := by
        match run, hne with
        | c :: rest, _ => simp
      have htk_dig : ∀ c ∈ run.take 5, c.isDigit = true := fun c hc =>
        hdig c (List.mem_of_mem_take hc)
      have htk_len : (run.take 5).length ≤ 5 := by
        simp [List.length_take]
      obtain ⟨hl, hd⟩ := zfill_digits 5 (run.take 5) htk_ne htk_dig htk_len
      cases h
      exact ⟨hl, hd⟩
    case h_2 heq =>
      set digits_only := (pyUpper (pyStrip pc.toList)).filter Char.isDigit with hdo
      have hdig : ∀ c ∈ digits_only, c.isDigit = true := by
        intro c hc
        exact (List.mem_filter.mp hc).2
      split at h
      · -- 5 or more digits: take the first 5
        cases h
        rename_i h5
        constructor
        · simpa [List.length_take] using Nat.min_eq_left h5
        · intro c hc
          exact hdig c (List.mem_of_mem_take hc)
      · split at h
        · -- 1 to 4 digits: zero-fill
          cases h
          rename_i hlt5 hpos
          have hne : digits_only ≠ [] := by
            intro hnil
            rw [hnil] at hpos
            simp at hpos
          have hle : digits_only.length ≤ 5 := by omega
          exact zfill_digits 5 digits_only hne hdig hle
        · exact absurd h (by simp)

/-- Witness for C1 at the concrete input "9021". -/
theorem norm_postal_shape_witness :
    ("09021" : String).length = 5 ∧ ∀ c ∈ ("09021" : String).toList, c.isDigit = true :=
  norm_postal_shape (some "9021") "09021" (by decide)

/-- C2 counterexample: on the masked input "325XX" the code returns "00325"
(the digit run is LEFT-padded by `zfill`), not "32500" as the claim states. -/
theorem norm_postal_masked_cex :
    normalize_postal_code (some "325XX") = some "00325" ∧
    normalize_postal_code (some "325XX") ≠ some "32500" := by
  constructor
  · decide
  · decide

/-- C2 amended: `normalize_postal_code "325XX" = "00325"` (not "32500"),
`normalize_postal_code "9021" = "09021"`, absent maps to absent; in the masked
case the first maximal digit run is truncated to its first 5 characters and
LEFT-padded with zeros to length 5. -/
theorem norm_postal_masked_amended :
    normalize_postal_code (some "325XX") = some "00325" ∧
    normalize_postal_code (some "9021") = some "09021" ∧
    normalize_postal_code none = none ∧
    ∀ (pc : String) (run : List Char),
      (containsSub ['X', 'X'] (pyUpper (pyStrip pc.toList)) ||
        (pyUpper (pyStrip pc.toList)).contains 'X') = true →
      (digitRuns (pyUpper (pyStrip pc.toList))).head? = some run →
      normalize_postal_code (some pc) = some ⟨zfill 5 (run.take 5)⟩ := by
  refine ⟨by decide, by decide, by decide, ?_⟩
  intro pc run hX hrun
  simp only [normalize_postal_code, hX, if_true, hrun]

/-- Witness for the amended C2 at the concrete masked input "325XX". -/
theorem norm_postal_masked_amended_witness :
    normalize_postal_code (some "325XX") = some ⟨zfill 5 (['3', '2', '5'].take 5)⟩ :=
  norm_postal_masked_amended.2.2.2 "325XX" ['3', '2', '5'] (by decide) (by decide)

/-- The maximum of a list is an element of it. -/
theorem listMax_mem : ∀ (l : List Rat) (m : Rat), listMax l = some m → m ∈ l := by
  intro l
  induction l with
  | nil => intro m h; simp [listMax] at h
  | cons x xs ih =>
    intro m h
    simp only [listMax] at h
    cases hxs : listMax xs with
    | none => rw [hxs] at h; cases h; simp
    | some m' =>
      rw [hxs] at h
      cases h
      rcases max_choice x m' with hc | hc <;> rw [hc]
      · simp
      · exact List.mem_cons_of_mem x (ih m' hxs)

/-- The maximum of a list bounds every element. -/
theorem listMax_ub : ∀ (l : List Rat) (m : Rat), listMax l = some m →
    ∀ x ∈ l, x ≤ m := by
  intro l
  induction l with
  | nil => intro m _ x hx; simp at hx
  | cons y ys ih =>
    intro m h x hx
    simp only [listMax] at h
    cases hys : listMax ys with
    | none =>
      rw [hys] at h
      cases h
      rcases List.mem_cons.mp hx with hx | hx
      · exact le_of_eq hx
      · cases ys with
        | nil => simp at hx
        | cons z zs =>
          cases hzz : listMax zs <;> simp [listMax, hzz] at hys
    | some m' =>
      rw [hys] at h
      cases h
      rcases List.mem_cons.mp hx with hx | hx
      · rw [hx]; exact le_max_left y m'
      · exact le_trans (ih m' hys x hx) (le_max_right y m')

/-- Scan invariant of `extractOneAux`, `none` case: no remaining score met the
cutoff, and there was no accumulated best candidate. -/
theorem extractOneAux_none (q : String) (cutoff : Rat) :
    ∀ (cs : List String) (best : Option (String × Rat)),
    (∀ b bs, best = some (b, bs) → bs = simScore q b ∧ cutoff ≤ bs) →
    extractOneAux q cutoff best cs = none →
    best = none ∧ ∀ c ∈ cs, simScore q c < cutoff := by
  intro cs
  induction cs with
  | nil =>
    intro best hbest h
    cases best with
    | none => simp
    | some p => simp [extractOneAux] at h
  | cons c cs ih =>
    intro best hbest h
    cases best with
    | none =>
      by_cases hcut : cutoff ≤ simScore q c
      · simp only [extractOneAux, hcut, if_true] at h
        have := (ih (some (c, simScore q c))
          (by intro b bs hb; cases hb; exact ⟨rfl, hcut⟩) h).1
        exact absurd this (by simp)
      · simp only [extractOneAux, hcut, if_false] at h
        obtain ⟨_, hall⟩ := ih none (by simp) h
        refine ⟨rfl, ?_⟩
        intro x hx
        rcases List.mem_cons.mp hx with hx | hx
        · subst hx; exact lt_of_not_le hcut
        · exact hall x hx
    | some p =>
      obtain ⟨b0, bs0⟩ := p
      by_cases hlt : bs0 < simScore q c
      · simp only [extractOneAux, hlt, if_true] at h
        obtain ⟨h1, h2⟩ := hbest b0 bs0 rfl
        have := (ih (some (c, simScore q c))
          (by intro b bs hb; cases hb; exact ⟨rfl, le_of_lt (lt_of_le_of_lt h2 hlt)⟩) h).1
        exact absurd this (by simp)
      · simp only [extractOneAux, hlt, if_false] at h
        have := (ih (some (b0, bs0)) hbest h).1
        exact absurd this (by simp)

/-- Scan invariant of `extractOneAux`, `some` case: the result is a scanned
choice or the carried best, bears its own score, meets the cutoff, and
dominates every scanned score and the carried best's score. -/
theorem extractOneAux_some (q : String) (cutoff : Rat) :
    ∀ (cs : List String) (best : Option (String × Rat)) (b : String) (bs : Rat),
    (∀ b' bs', best = some (b', bs') → bs' = simScore q b' ∧ cutoff ≤ bs') →
    extractOneAux q cutoff best cs = some (b, bs) →
    (b ∈ cs ∨ best = some (b, bs)) ∧ bs = simScore q b ∧ cutoff ≤ bs ∧
      (∀ c ∈ cs, simScore q c ≤ bs) ∧
      (∀ b0 bs0, best = some (b0, bs0) → bs0 ≤ bs) := by
  intro cs
  induction cs with
  | nil =>
    intro best b bs hbest h
    simp only [extractOneAux] at h
    subst h
    obtain ⟨h1, h2⟩ := hbest b bs rfl
    refine ⟨Or.inr rfl, h1, h2, by simp, ?_⟩
    intro b0 bs0 hb
    cases hb
    exact le_refl _
  | cons c cs ih =>
    intro best b bs hbest h
    cases best with
    | none =>
      by_cases hcut : cutoff ≤ simScore q c
      · simp only [extractOneAux, hcut, if_true] at h
        obtain ⟨hmem, hsc, hc, hub, hcarry⟩ := ih (some (c, simScore q c)) b bs
          (by intro b' bs' hb; cases hb; exact ⟨rfl, hcut⟩) h
        refine ⟨?_, hsc, hc, ?_, by intro b0 bs0 hb; cases hb⟩
        · rcases hmem with hm | hm
          · exact Or.inl (List.mem_cons_of_mem c hm)
          · cases hm; exact Or.inl (by simp)
        · intro x hx
          rcases List.mem_cons.mp hx with hx | hx
          · rw [hx]; exact hcarry c (simScore q c) rfl
          · exact hub x hx
      · simp only [extractOneAux, hcut, if_false] at h
        obtain ⟨hmem, hsc, hc, hub, _⟩ := ih none b bs (by simp) h
        refine ⟨?_, hsc, hc, ?_, by intro b0 bs0 hb; cases hb⟩
        · rcases hmem with hm | hm
          · exact Or.inl (List.mem_cons_of_mem c hm)
          · simp at hm
        · intro x hx
          rcases List.mem_cons.mp hx with hx | hx
          · subst hx; exact le_trans (le_of_lt (lt_of_not_le hcut)) hc
          · exact hub x hx
    | some p =>
      obtain ⟨b0, bs0⟩ := p
      obtain ⟨hsc0, hc0⟩ := hbest b0 bs0 rfl
      by_cases hlt : bs0 < simScore q c
      · simp only [extractOneAux, hlt, if_true] at h
        obtain ⟨hmem, hsc, hc, hub, hcarry⟩ := ih (some (c, simScore q c)) b bs
          (by intro b' bs' hb; cases hb; exact ⟨rfl, le_of_lt (lt_of_le_of_lt hc0 hlt)⟩) h
        have hcbs : simScore q c ≤ bs := hcarry c (simScore q c) rfl
        refine ⟨?_, hsc, hc, ?_, ?_⟩
        · rcases hmem with hm | hm
          · exact Or.inl (List.mem_cons_of_mem c hm)
          · cases hm; exact Or.inl (by simp)
        · intro x hx
          rcases List.mem_cons.mp hx with hx | hx
          · subst hx; exact hcbs
          · exact hub x hx
        · intro b1 bs1 hb
          cases hb
          exact le_trans (le_of_lt hlt) hcbs
      · simp only [extractOneAux, hlt, if_false] at h
        obtain ⟨hmem, hsc, hc, hub, hcarry⟩ := ih (some (b0, bs0)) b bs hbest h
        have hbs0 : bs0 ≤ bs := hcarry b0 bs0 rfl
        refine ⟨?_, hsc, hc, ?_, ?_⟩
        · rcases hmem with hm | hm
          · exact Or.inl (List.mem_cons_of_mem c hm)
          · exact Or.inr hm
        · intro x hx
          rcases List.mem_cons.mp hx with hx | hx
          · subst hx; exact le_trans (le_of_not_lt hlt) hbs0
          · exact hub x hx
        · intro b1 bs1 hb
          cases hb
          exact hbs0

/-- Any successful match returned by `find_best_match` is a member of the
reference list (shared helper). -/
theorem find_best_match_mem (valid_zips : List String) (threshold : Rat)
    (po : Option String) (z : String)
    (h : find_best_match valid_zips threshold po = some z) : z ∈ valid_zips := by
  cases po with
  | none => simp [find_best_match] at h
  | some p =>
    by_cases hin : p ∈ valid_zips
    · simp only [find_best_match, hin, if_true] at h
      cases h
      exact hin
    · simp only [find_best_match, hin, if_false] at h
      cases hres : extractOne p valid_zips threshold with
      | none => rw [hres] at h; cases h
      | some r =>
        rw [hres] at h
        cases h
        obtain ⟨hmem, _, _, _, _⟩ :=
          extractOneAux_some p threshold valid_zips none r.1 r.2 (by simp)
            (by simpa [extractOne] using hres)
        rcases hmem with hm | hm
        · exact hm
        · cases hm

/-- C7: an exact hit in the reference set is returned unchanged, for every
threshold; the fuzzy-scoring branch is never consulted. -/
theorem fuzzy_exact_short_circuit (valid_zips : List String) (threshold : Rat)
    (postal_str : String) (hin : postal_str ∈ valid_zips) :
    find_best_match valid_zips threshold (some postal_str) = some postal_str := by
  simp [find_best_match, hin]

/-- Witness for C7: the exact member "10001" is returned unchanged even at an
extreme threshold. -/
theorem fuzzy_exact_short_circuit_witness :
    find_best_match ["10001"] 1000 (some "10001") = some "10001" :=
  fuzzy_exact_short_circuit ["10001"] 1000 "10001" (by decide)

/-- C6: for a non-absent normalized code not in the reference set, the matcher
returns a candidate of maximal similarity score when that maximum reaches the
threshold, and absent when the maximum is below the threshold. -/
theorem fuzzy_threshold_spec (valid_zips : List String) (threshold : Rat)
    (p : String) (m : Rat) (hnotin : p ∉ valid_zips)
    (hmax : listMax (valid_zips.map (fun z => simScore p z)) = some m) :
    (threshold ≤ m →
      ∃ z ∈ valid_zips, simScore p z = m ∧
        find_best_match valid_zips threshold (some p) = some z) ∧
    (m < threshold → find_best_match valid_zips threshold (some p) = none) := by
  have hm_mem : ∃ z ∈ valid_zips, simScore p z = m := by
    have := listMax_mem _ m hmax
    simpa using this
  cases hres : extractOne p valid_zips threshold with
  | none =>
    obtain ⟨_, hall⟩ :=
      extractOneAux_none p threshold valid_zips none (by simp) hres
    obtain ⟨z0, hz0, hz0m⟩ := hm_mem
    have hmlt : m < threshold := hz0m ▸ hall z0 hz0
    constructor
    · intro hle
      exact absurd hmlt (not_lt_of_le hle)
    · intro _
      simp only [find_best_match, hnotin, if_false, hres]
  | some r =>
    obtain ⟨hmem, hsc, hcut, hub, _⟩ :=
      extractOneAux_some p threshold valid_zips none r.1 r.2 (by simp)
        (by simpa [extractOne] using hres)
    have hbmem : r.1 ∈ valid_zips := by
      rcases hmem with hm | hm
      · exact hm
      · cases hm
    have hbs_le_m : r.2 ≤ m := by
      have : simScore p r.1 ∈ valid_zips.map (fun z => simScore p z) :=
        List.mem_map.mpr ⟨r.1, hbmem, rfl⟩
      rw [hsc]
      exact listMax_ub _ m hmax _ this
    have hm_le_bs : m ≤ r.2 := by
      obtain ⟨z0, hz0, hz0m⟩ := hm_mem
      rw [← hz0m]
      exact hub z0 hz0
    have hbs_eq : r.2 = m := le_antisymm hbs_le_m hm_le_bs
    constructor
    · intro _
      refine ⟨r.1, hbmem, by rw [← hsc, hbs_eq], ?_⟩
      simp only [find_best_match, hnotin, if_false, hres]
    · intro hlt
      exact absurd (hbs_eq ▸ hcut) (not_le_of_lt hlt)

/-- Witness for C6: "10000" against the reference set `["10001"]` scores
exactly 80 and is matched at the default threshold 80. -/
theorem fuzzy_threshold_spec_witness :
    ∃ z ∈ (["10001"] : List String), simScore "10000" z = 80 ∧
      find_best_match ["10001"] 80 (some "10000") = some z :=
  (fuzzy_threshold_spec ["10001"] 80 "10000" 80 (by decide)
    (by norm_num [listMax, simScore, lcsLen, show ('0' : Char) ≠ '1' by decide,
      show ('1' : Char) ≠ '0' by decide])).1 (le_refl 80)

/-- Length of `zfill`: the target width or the input length, whichever is
larger. -/
theorem zfill_length (w : Nat) (s : List Char) :
    (zfill w s).length = max w s.length := by
  unfold zfill
  by_cases h : w ≤ s.length
  · simp only [h, if_true]
    omega
  · simp only [h, if_false]
    cases s with
    | nil => simp [zfillPad]
    | cons c rest =>
      rw [zfillPad]
      by_cases hs : (c = '+' || c = '-') = true
      · rw [if_pos hs]
        simp only [List.length_cons, List.length_append, List.length_replicate]
        omega
      · rw [if_neg hs]
        simp only [List.length_append, List.length_replicate, List.length_cons]
        omega

/-- C5 counterexample: cleaning a demographics table whose zip code has six
characters leaves it at six characters, so the "exactly 5" invariant fails. -/
theorem clean_demo_zip_cex :
    ¬ (∀ d ∈ clean_demographics_data [⟨"123456", none, none, "low"⟩],
        d.zip_code.length = 5) := by decide

/-- C5 amended: when every raw zip code has at most 5 characters, every
cleaned zip code is exactly 5 characters, obtained by left-zero-filling the
raw string; raw zip codes longer than 5 pass through unchanged instead. -/
theorem clean_demo_zip_amended (demographics_df : List RawDemographicsRow)
    (h : ∀ r ∈ demographics_df, r.zip_code.length ≤ 5) :
    ∀ d ∈ clean_demographics_data demographics_df,
      d.zip_code.length = 5 ∧
      ∃ r ∈ demographics_df, d.zip_code.toList = zfill 5 r.zip_code.toList := by
  intro d hd
  obtain ⟨r, hr, hmap⟩ := List.mem_map.mp hd
  subst hmap
  constructor
  · have hlen := zfill_length 5 r.zip_code.toList
    have hr5 : r.zip_code.length ≤ 5 := h r hr
    have htl : r.zip_code.toList.length = r.zip_code.length := rfl
    show (zfill 5 r.zip_code.toList).length = 5
    omega
  · exact ⟨r, hr, rfl⟩

/-- Witness for the amended C5 at the one-character raw zip "9". -/
theorem clean_demo_zip_amended_witness :
    ("00009" : String).length = 5 ∧
      ∃ r ∈ [(⟨"9", none, none, "low"⟩ : RawDemographicsRow)],
        ("00009" : String).toList = zfill 5 r.zip_code.toList :=
  clean_demo_zip_amended [⟨"9", none, none, "low"⟩] (by decide)
    ⟨"00009", none, none, "Low"⟩ (by decide)

/-- C8: when either source file is missing, the loader yields two empty
tables and the pipeline aborts with an empty unified table (the embedding is
a total function, so no exception can escape). -/
theorem pipeline_missing_file_empty
    (demographics_file : Option (List RawDemographicsRow))
    (listings_file : Option (List RawListingRow))
    (h : demographics_file = none ∨ listings_file = none) :
    process_all_data demographics_file listings_file = [] := by
  rcases h with h | h
  · subst h
    cases listings_file <;> simp [process_all_data, load_data]
  · subst h
    cases demographics_file <;> simp [process_all_data, load_data]

/-- Witness for C8: a missing demographics file with a nonempty listings file
yields an empty unified table. -/
theorem pipeline_missing_file_empty_witness :
    process_all_data none
      (some [⟨"1 Main St", some "10001", some 300000, some 1500, some 3⟩]) = [] :=
  pipeline_missing_file_empty none
    (some [⟨"1 Main St", some "10001", some 300000, some 1500, some 3⟩])
    (Or.inl rfl)

/-- With pairwise-distinct zip codes, at most one demographic row matches any
key. -/
theorem filter_zip_len_le_one (ds : List RawDemographicsRow) (k : Option String)
    (hnodup : (ds.map (fun d => d.zip_code)).Nodup) :
    (ds.filter (fun d => k = some d.zip_code)).length ≤ 1 := by
  induction ds with
  | nil => simp
  | cons d ds ih =>
    rw [List.map_cons, List.nodup_cons] at hnodup
    obtain ⟨hd, h2⟩ := hnodup
    by_cases hk : k = some d.zip_code
    · have hnil : ds.filter (fun d => k = some d.zip_code) = [] := by
        rw [List.filter_eq_nil_iff]
        intro d' hd' hkk
        have hk2 : k = some d'.zip_code := of_decide_eq_true hkk
        have hzz : d'.zip_code = d.zip_code := by
          rw [hk] at hk2
          exact (Option.some.inj hk2).symm
        exact hd (hzz ▸ List.mem_map.mpr ⟨d', hd', rfl⟩)
      rw [List.filter_cons_of_pos (by simpa using hk), hnil]
      simp
    · rw [List.filter_cons_of_neg (by simpa using hk)]
      exact ih h2

/-- Row count of the left-join pairing: one output row per listing row when
the demographic zip codes are pairwise distinct. -/
theorem mergePairs_length (ls : List MatchedListingRow)
    (ds : List RawDemographicsRow)
    (hnodup : (ds.map (fun d => d.zip_code)).Nodup) :
    (mergePairs ls ds).length = ls.length := by
  induction ls with
  | nil => simp [mergePairs]
  | cons l ls ih =>
    have hstep : mergePairs (l :: ls) ds =
        (match ds.filter (fun d => l.matched_zip_code = some d.zip_code) with
         | [] => [(l, none)]
         | d :: ds' => (d :: ds').map fun d' => (l, some d')) ++ mergePairs ls ds := by
      simp [mergePairs]
    rw [hstep, List.length_append, ih]
    cases hf : ds.filter (fun d => l.matched_zip_code = some d.zip_code) with
    | nil => simp [hf]; omega
    | cons d ds' =>
      have hle := filter_zip_len_le_one ds l.matched_zip_code hnodup
      rw [hf] at hle
      simp only [List.length_cons] at hle
      have hnil : ds' = [] := by
        cases ds' with
        | nil => rfl
        | cons a b => simp at hle
      subst hnil
      simp [hf]
      omega

/-- Pairing invariant of the left join: a row's demographic part is null
exactly when its key matches no demographic zip code (in particular when the
key is absent), and a non-null part is a matching demographic row. -/
theorem mergePairs_pair_spec (ls : List MatchedListingRow)
    (ds : List RawDemographicsRow) :
    ∀ p ∈ mergePairs ls ds,
      (p.2 = none ↔ ∀ d ∈ ds, p.1.matched_zip_code ≠ some d.zip_code) ∧
      (∀ d, p.2 = some d → d ∈ ds ∧ p.1.matched_zip_code = some d.zip_code) := by
  intro p hp
  obtain ⟨l, hl, hpl⟩ := List.mem_flatMap.mp hp
  cases hf : ds.filter (fun d => l.matched_zip_code = some d.zip_code) with
  | nil =>
    rw [hf] at hpl
    simp only [List.mem_singleton] at hpl
    subst hpl
    have hnone : ∀ d ∈ ds, l.matched_zip_code ≠ some d.zip_code := by
      intro d hd
      have := List.filter_eq_nil_iff.mp hf d hd
      simpa using this
    exact ⟨by simpa using hnone, by intro d hd; cases hd⟩
  | cons d0 ds' =>
    rw [hf] at hpl
    obtain ⟨d', hd', hpd⟩ := List.mem_map.mp hpl
    subst hpd
    have hd'f : d' ∈ ds.filter (fun d => l.matched_zip_code = some d.zip_code) := by
      rw [hf]; exact hd'
    have hd'ds : d' ∈ ds := List.mem_of_mem_filter hd'f
    have hd'k : l.matched_zip_code = some d'.zip_code := by
      have := List.of_mem_filter hd'f
      simpa using this
    constructor
    · simp only []
      constructor
      · intro hx; cases hx
      · intro hall
        exact absurd hd'k (hall d' hd'ds)
    · intro d hd
      have : d = d' := by simpa using hd.symm
      subst this
      exact ⟨hd'ds, hd'k⟩

/-- C4 counterexample: a raw demographics table with a duplicated zip code
survives cleaning with the duplicate intact, and the left join then produces
more rows than the matched-listings table. -/
theorem merge_rowcount_cex :
    (merge_data
        (fuzzy_match_postal_codes
          (clean_listings_data
            [⟨"1 Main St", some "00001", some 100000, some 1000, some 3⟩])
          (clean_demographics_data
            [⟨"1", none, none, "low"⟩, ⟨"1", some 2, none, "low"⟩]) 80)
        (clean_demographics_data
          [⟨"1", none, none, "low"⟩, ⟨"1", some 2, none, "low"⟩])).length ≠
      (fuzzy_match_postal_codes
        (clean_listings_data
          [⟨"1 Main St", some "00001", some 100000, some 1000, some 3⟩])
        (clean_demographics_data
          [⟨"1", none, none, "low"⟩, ⟨"1", some 2, none, "low"⟩]) 80).length := by
  decide

/-- C4 amended: when the cleaned demographic zip codes are pairwise distinct
(the spec's "unique key" data-model invariant, which cleaning itself does not
enforce), the merge is a left join preserving the row count of the
matched-listings table, with null demographic columns exactly for rows whose
key is absent or matches no demographic zip code. -/
theorem merge_left_join_amended (listings_df : List MatchedListingRow)
    (raw_demographics : List RawDemographicsRow)
    (hnodup : ((clean_demographics_data raw_demographics).map
      (fun d => d.zip_code)).Nodup) :
    (merge_data listings_df (clean_demographics_data raw_demographics)).length =
      listings_df.length ∧
    ∀ p ∈ merge_data listings_df (clean_demographics_data raw_demographics),
      (p.demo = none ↔
        ∀ d ∈ clean_demographics_data raw_demographics,
          p.listing.matched_zip_code ≠ some d.zip_code) ∧
      (∀ d, p.demo = some d →
        d ∈ clean_demographics_data raw_demographics ∧
          p.listing.matched_zip_code = some d.zip_code) := by
  constructor
  · rw [merge_data, List.length_map]
    exact mergePairs_length _ _ hnodup
  · intro p hp
    rw [merge_data] at hp
    obtain ⟨q, hq, hpq⟩ := List.mem_map.mp hp
    obtain ⟨h1, h2⟩ := mergePairs_pair_spec _ _ q hq
    subst hpq
    exact ⟨h1, h2⟩

/-- Witness for the amended C4 on a one-listing, two-distinct-zip table. -/
theorem merge_left_join_amended_witness :
    (merge_data
        [⟨⟨"1 Main St", some "00001", 100000, 1000, some 3, some "00001",
            "1 main street", 100⟩, some "00001"⟩]
        (clean_demographics_data
          [⟨"1", none, none, "low"⟩, ⟨"2", some 2, none, "low"⟩])).length =
      [(⟨⟨"1 Main St", some "00001", 100000, 1000, some 3, some "00001",
          "1 main street", 100⟩, some "00001"⟩ : MatchedListingRow)].length :=
  (merge_left_join_amended
    [⟨⟨"1 Main St", some "00001", 100000, 1000, some 3, some "00001",
        "1 main street", 100⟩, some "00001"⟩]
    [⟨"1", none, none, "low"⟩, ⟨"2", some 2, none, "low"⟩] (by decide)).1

/-- C10: every non-absent `matched_zip_code` produced by the matcher is an
element of the demographics table's zip-code column, so every non-null join
key resolves to at least one demographic row. -/
theorem matched_zip_in_reference (listings_df : List CleanListingRow)
    (demographics_df : List RawDemographicsRow) (threshold : Rat)
    (m : MatchedListingRow) (z : String)
    (hm : m ∈ fuzzy_match_postal_codes listings_df demographics_df threshold)
    (hz : m.matched_zip_code = some z) :
    z ∈ demographics_df.map (fun d => d.zip_code) := by
  simp only [fuzzy_match_postal_codes, List.mem_map] at hm
  obtain ⟨l, hl, hml⟩ := hm
  subst hml
  simp only [] at hz
  have hmem := find_best_match_mem _ _ _ _ hz
  exact List.mem_dedup.mp hmem

/-- Witness for C10 at a concrete exact match. -/
theorem matched_zip_in_reference_witness :
    ("10001" : String) ∈
      ([⟨"10001", some 80000, some 7, "low"⟩] :
        List RawDemographicsRow).map (fun d => d.zip_code) :=
  matched_zip_in_reference
    [⟨"1 Main St", some "10001", 300000, 1500, some 3, some "10001",
        "1 main street", 200⟩]
    [⟨"10001", some 80000, some 7, "low"⟩] 80
    ⟨⟨"1 Main St", some "10001", 300000, 1500, some 3, some "10001",
        "1 main street", 200⟩, some "10001"⟩
    "10001" (by decide) rfl

/-- Deduplication loop versus its specification: the source's `seen`-set loop
equals the first-occurrence rule with numeric tokens exempt, whenever `seen`
holds exactly the processed tokens. -/
theorem dedupAux_eq_spec :
    ∀ (ws : List (List Char)) (seen pre : List (List Char)),
      (∀ x, x ∈ seen ↔ x ∈ pre) → dedupAux seen ws = dedupSpec pre ws := by
  intro ws
  induction ws with
  | nil => intro seen pre h; simp [dedupAux, dedupSpec]
  | cons w ws ih =>
    intro seen pre h
    have hw := h w
    have hcond : (w ∉ seen ∨ tokIsDigit w = true) ↔
        (tokIsDigit w = true ∨ w ∉ pre) := by
      constructor
      · intro hc
        rcases hc with hc | hc
        · exact Or.inr (fun hx => hc (hw.mpr hx))
        · exact Or.inl hc
      · intro hc
        rcases hc with hc | hc
        · exact Or.inr hc
        · exact Or.inl (fun hx => hc (hw.mp hx))
    by_cases hkeep : w ∉ seen ∨ tokIsDigit w = true
    · rw [dedupAux, if_pos hkeep, dedupSpec, if_pos (hcond.mp hkeep)]
      congr 1
      apply ih
      intro x
      by_cases hws : w ∈ seen
      · rw [if_pos hws]
        constructor
        · intro hx
          exact List.mem_append_left _ ((h x).mp hx)
        · intro hx
          rcases List.mem_append.mp hx with hx | hx
          · exact (h x).mpr hx
          · have : x = w := by simpa using hx
            subst this; exact hws
      · rw [if_neg hws]
        constructor
        · intro hx
          rcases List.mem_cons.mp hx with hx | hx
          · subst hx; exact List.mem_append_right _ (by simp)
          · exact List.mem_append_left _ ((h x).mp hx)
        · intro hx
          rcases List.mem_append.mp hx with hx | hx
          · exact List.mem_cons_of_mem _ ((h x).mpr hx)
          · have : x = w := by simpa using hx
            subst this; simp
    · rw [dedupAux, if_neg hkeep, dedupSpec, if_neg (fun hc => hkeep (hcond.mpr hc))]
      apply ih
      intro x
      have hwseen : w ∈ seen := by
        by_contra hx
        exact hkeep (Or.inl hx)
      constructor
      · intro hx
        exact List.mem_append_left _ ((h x).mp hx)
      · intro hx
        rcases List.mem_append.mp hx with hx | hx
        · exact (h x).mpr hx
        · have : x = w := by simpa using hx
          subst this; exact hwseen

/-- A looked-up value of an association list is among its values. -/
theorem lookup_mem_values : ∀ (l : List (Char × Char)) (c d : Char),
    l.lookup c = some d → d ∈ l.map Prod.snd := by
  intro l
  induction l with
  | nil => intro c d h; simp [List.lookup] at h
  | cons p l ih =>
    intro c d h
    rw [List.lookup] at h
    cases hb : c == p.1
    · simp only [hb] at h
      exact List.mem_cons_of_mem _ (ih c d h)
    · simp only [hb] at h
      cases h
      simp

/-- ASCII lower-casing is idempotent. -/
theorem asciiLower_idem (c : Char) : asciiLower (asciiLower c) = asciiLower c := by
  cases h : lowerTable.lookup c with
  | none =>
    have hc : asciiLower c = c := by unfold asciiLower; rw [h]
    rw [hc]
    exact hc
  | some d =>
    have hc : asciiLower c = d := by unfold asciiLower; rw [h]
    have hvals : ∀ v ∈ lowerTable.map Prod.snd, lowerTable.lookup v = none := by decide
    have hd : asciiLower d = d := by
      unfold asciiLower
      rw [hvals d (lookup_mem_values lowerTable c d h)]
    rw [hc, hd]

/-- A word character is not whitespace. -/
theorem word_not_space (c : Char) (h : isWordChar c = true) : isPySpace c = false := by
  by_contra h'
  have hsp : isPySpace c = true := by
    cases hb : isPySpace c
    · exact absurd hb h'
    · rfl
  simp only [isPySpace, Bool.or_eq_true, decide_eq_true_eq] at hsp
  rcases hsp with ((((h1 | h1) | h1) | h1) | h1) | h1 <;>
    (subst h1; exact absurd h (by decide))

/-- Equation for `intercalate` on a singleton list of tokens. -/
theorem ic_singleton (t : List Char) : List.intercalate [' '] [t] = t := by
  simp [List.intercalate]

/-- Equation for `intercalate` on two or more tokens. -/
theorem ic_cons₂ (t t' : List Char) (ts : List (List Char)) :
    List.intercalate [' '] (t :: t' :: ts) =
      t ++ ' ' :: List.intercalate [' '] (t' :: ts) := by
  simp [List.intercalate, List.intersperse]

/-- Characters of an intercalated token list: the separator or a token
character. -/
theorem mem_ic : ∀ (ts : List (List Char)) (c : Char),
    c ∈ List.intercalate [' '] ts → c = ' ' ∨ ∃ t ∈ ts, c ∈ t := by
  intro ts
  induction ts with
  | nil => intro c h; simp [List.intercalate] at h
  | cons t ts ih =>
    intro c h
    cases ts with
    | nil =>
      rw [ic_singleton] at h
      exact Or.inr ⟨t, by simp, h⟩
    | cons t' ts' =>
      rw [ic_cons₂] at h
      rcases List.mem_append.mp h with h | h
      · exact Or.inr ⟨t, by simp, h⟩
      · rcases List.mem_cons.mp h with h | h
        · exact Or.inl h
        · rcases ih c h with h | ⟨u, hu, hc⟩
          · exact Or.inl h
          · exact Or.inr ⟨u, List.mem_cons_of_mem _ hu, hc⟩

/-- Lower-casing is the identity on a string of lower-case-fixed characters. -/
theorem pyLower_fix : ∀ (l : List Char), (∀ c ∈ l, asciiLower c = c) →
    pyLower l = l := by
  intro l
  induction l with
  | nil => intro _; rfl
  | cons c l ih =>
    intro h
    simp only [pyLower, List.map_cons]
    rw [h c (by simp)]
    have h2 := ih (fun c hc => h c (List.mem_cons_of_mem _ hc))
    simp only [pyLower] at h2
    rw [h2]

/-- Dropping while a predicate holds is the identity when the head fails the
predicate. -/
theorem dropWhile_head_fix (p : Char → Bool) : ∀ (l : List Char),
    (∀ c, l.head? = some c → p c = false) → l.dropWhile p = l := by
  intro l h
  cases l with
  | nil => rfl
  | cons c l =>
    rw [List.dropWhile_cons, if_neg]
    simp [h c rfl]

/-- A nonempty intercalation of nonempty tokens is nonempty. -/
theorem ic_ne_nil : ∀ (ts : List (List Char)), ts ≠ [] →
    (∀ t ∈ ts, t ≠ []) → List.intercalate [' '] ts ≠ [] := by
  intro ts hne h
  cases ts with
  | nil => exact absurd rfl hne
  | cons t ts =>
    have ht : t ≠ [] := h t (by simp)
    cases ts with
    | nil =>
      rw [ic_singleton]
      exact ht
    | cons t' ts' =>
      rw [ic_cons₂]
      cases t with
      | nil => exact absurd rfl ht
      | cons c t => simp

/-- The head of an intercalation of word tokens is a word character. -/
theorem ic_head_word : ∀ (ts : List (List Char)),
    (∀ t ∈ ts, t ≠ [] ∧ ∀ c ∈ t, isWordChar c = true) →
    ∀ c, (List.intercalate [' '] ts).head? = some c → isWordChar c = true := by
  intro ts h c hc
  cases ts with
  | nil => simp [List.intercalate] at hc
  | cons t ts =>
    obtain ⟨ht, hw⟩ := h t (by simp)
    match t, ht with
    | c0 :: t0, _ =>
      have hc0 : isWordChar c0 = true := hw c0 (by simp)
      cases ts with
      | nil =>
        rw [ic_singleton] at hc
        cases hc
        exact hc0
      | cons t' ts' =>
        rw [ic_cons₂] at hc
        simp only [List.cons_append, List.head?_cons] at hc
        cases hc
        exact hc0

/-- The last character of an intercalation of word tokens is a word
character. -/
theorem ic_getLast_word : ∀ (ts : List (List Char)),
    (∀ t ∈ ts, t ≠ [] ∧ ∀ c ∈ t, isWordChar c = true) →
    ∀ c, (List.intercalate [' '] ts).getLast? = some c → isWordChar c = true := by
  intro ts
  induction ts with
  | nil => intro _ c hc; simp [List.intercalate] at hc
  | cons t ts ih =>
    intro h c hc
    obtain ⟨ht, hw⟩ := h t (by simp)
    cases ts with
    | nil =>
      rw [ic_singleton] at hc
      exact hw c (List.mem_of_mem_getLast? (Option.mem_def.mpr hc))
    | cons t' ts' =>
      rw [ic_cons₂] at hc
      have hne : List.intercalate [' '] (t' :: ts') ≠ [] :=
        ic_ne_nil _ (by simp) (fun u hu => (h u (List.mem_cons_of_mem _ hu)).1)
      rw [List.getLast?_append_cons] at hc
      have hc2 : (List.intercalate [' '] (t' :: ts')).getLast? = some c := by
        cases hic : List.intercalate [' '] (t' :: ts') with
        | nil => exact absurd hic hne
        | cons a l =>
          rw [hic] at hc
          simpa using hc
      exact ih (fun u hu => h u (List.mem_cons_of_mem _ hu)) c hc2

/-- Stripping is the identity when both ends are non-whitespace. -/
theorem pyStrip_fix (l : List Char)
    (hh : ∀ c, l.head? = some c → isPySpace c = false)
    (hl : ∀ c, l.getLast? = some c → isPySpace c = false) : pyStrip l = l := by
  unfold pyStrip
  rw [dropWhile_head_fix isPySpace l hh]
  rw [dropWhile_head_fix isPySpace l.reverse
    (fun c hc => hl c (by rwa [List.head?_reverse] at hc))]
  exact List.reverse_reverse l

/-- The whitespace collapse copies a run of non-whitespace characters. -/
theorem collapse_copy : ∀ (u rest : List Char), (∀ c ∈ u, isPySpace c = false) →
    collapseWsAux (u ++ rest) false = u ++ collapseWsAux rest false := by
  intro u
  induction u with
  | nil => intro rest _; rfl
  | cons c u ih =>
    intro rest h
    have hc : isPySpace c = false := h c (by simp)
    have hstep : collapseWsAux (c :: (u ++ rest)) false =
        c :: collapseWsAux (u ++ rest) false := by
      simp [collapseWsAux, hc]
    simp only [List.cons_append]
    rw [hstep, ih rest (fun x hx => h x (List.mem_cons_of_mem _ hx))]

/-- The two states of the whitespace collapse agree on a string whose head is
not whitespace. -/
theorem collapse_state (l : List Char)
    (h : ∀ c, l.head? = some c → isPySpace c = false) :
    collapseWsAux l true = collapseWsAux l false := by
  cases l with
  | nil => rfl
  | cons c cs =>
    have hc : isPySpace c = false := h c rfl
    simp [collapseWsAux, hc]

/-- Collapsing whitespace is the identity on an intercalation of word
tokens. -/
theorem collapse_ic : ∀ (ts : List (List Char)),
    (∀ t ∈ ts, t ≠ [] ∧ ∀ c ∈ t, isWordChar c = true) →
    collapseWs (List.intercalate [' '] ts) = List.intercalate [' '] ts := by
  intro ts
  induction ts with
  | nil => intro _; rfl
  | cons t ts ih =>
    intro h
    obtain ⟨ht, hw⟩ := h t (by simp)
    have htns : ∀ c ∈ t, isPySpace c = false :=
      fun c hc => word_not_space c (hw c hc)
    cases ts with
    | nil =>
      rw [ic_singleton]
      unfold collapseWs
      have hcp := collapse_copy t [] htns
      rw [List.append_nil] at hcp
      rw [hcp]
      simp [collapseWsAux]
    | cons t' ts' =>
      rw [ic_cons₂]
      unfold collapseWs
      rw [collapse_copy t (' ' :: List.intercalate [' '] (t' :: ts')) htns]
      congr 1
      have hstep : collapseWsAux (' ' :: List.intercalate [' '] (t' :: ts')) false =
          ' ' :: collapseWsAux (List.intercalate [' '] (t' :: ts')) true := by
        simp [collapseWsAux, show isPySpace ' ' = true by decide]
      rw [hstep, collapse_state _ (fun c hc =>
        word_not_space c (ic_head_word (t' :: ts')
          (fun u hu => h u (List.mem_cons_of_mem _ hu)) c hc))]
      have hrec := ih (fun u hu => h u (List.mem_cons_of_mem _ hu))
      unfold collapseWs at hrec
      rw [hrec]

/-- Punctuation stripping is the identity on an intercalation of word
tokens. -/
theorem filter_ic : ∀ (ts : List (List Char)),
    (∀ t ∈ ts, t ≠ [] ∧ ∀ c ∈ t, isWordChar c = true) →
    (List.intercalate [' '] ts).filter isWordOrSpace =
      List.intercalate [' '] ts := by
  intro ts h
  rw [List.filter_eq_self]
  intro c hc
  rcases mem_ic ts c hc with hc | ⟨t, ht, hct⟩
  · subst hc; decide
  · simp only [isWordOrSpace, Bool.or_eq_true]
    exact Or.inl ((h t ht).2 c hct)

/-- The Python split scanner copies a run of non-whitespace characters into
the accumulator. -/
theorem pySplitAux_copy : ∀ (u cs acc : List Char),
    (∀ c ∈ u, isPySpace c = false) →
    pySplitAux (u ++ cs) acc = pySplitAux cs (u.reverse ++ acc) := by
  intro u
  induction u with
  | nil => intro cs acc _; simp
  | cons c u ih =>
    intro cs acc h
    have hc : isPySpace c = false := h c (by simp)
    have hstep : pySplitAux (c :: (u ++ cs)) acc = pySplitAux (u ++ cs) (c :: acc) := by
      simp [pySplitAux, hc]
    simp only [List.cons_append]
    rw [hstep, ih cs (c :: acc) (fun x hx => h x (List.mem_cons_of_mem _ hx))]
    simp

/-- The Python split scanner flushes a nonempty accumulator at the end. -/
theorem pySplitAux_nil_acc : ∀ (acc : List Char), acc ≠ [] →
    pySplitAux [] acc = [acc.reverse] := by
  intro acc h
  cases acc with
  | nil => exact absurd rfl h
  | cons a as => rfl

/-- Splitting is a left inverse of intercalation on word tokens. -/
theorem pySplit_ic : ∀ (ts : List (List Char)),
    (∀ t ∈ ts, t ≠ [] ∧ ∀ c ∈ t, isWordChar c = true) →
    pySplit (List.intercalate [' '] ts) = ts := by
  intro ts
  induction ts with
  | nil => intro _; rfl
  | cons t ts ih =>
    intro h
    obtain ⟨ht, hw⟩ := h t (by simp)
    have htns : ∀ c ∈ t, isPySpace c = false :=
      fun c hc => word_not_space c (hw c hc)
    have hrne : t.reverse ≠ [] := by simpa using ht
    cases ts with
    | nil =>
      rw [ic_singleton]
      unfold pySplit
      have hcopy := pySplitAux_copy t [] [] htns
      rw [List.append_nil] at hcopy
      rw [hcopy, List.append_nil, pySplitAux_nil_acc t.reverse hrne,
        List.reverse_reverse]
    | cons t' ts' =>
      rw [ic_cons₂]
      unfold pySplit
      rw [pySplitAux_copy t (' ' :: List.intercalate [' '] (t' :: ts')) [] htns,
        List.append_nil]
      have hsp : isPySpace ' ' = true := by decide
      match hrev : t.reverse, hrne with
      | a :: as, _ =>
        simp only [pySplitAux, hsp, if_true]
        have : (a :: as).reverse = t := by rw [← hrev, List.reverse_reverse]
        rw [this]
        have hrec := ih (fun u hu => h u (List.mem_cons_of_mem _ hu))
        unfold pySplit at hrec
        rw [hrec]

/-- Characters produced by the `re.sub` scanner come from the input or the
replacement. -/
theorem subScanF_chars (r : Rule) : ∀ (fuel : Nat) (prev : Option Char)
    (cs : List Char) (c : Char), c ∈ subScanF r fuel prev cs →
    c ∈ cs ∨ c ∈ r.repl := by
  intro fuel
  induction fuel with
  | zero => intro prev cs c h; simp [subScanF] at h
  | succ fuel ih =>
    intro prev cs c h
    cases cs with
    | nil => simp [subScanF] at h
    | cons c0 cs' =>
      cases hm : matchFrom r prev (c0 :: cs') with
      | none =>
        simp only [subScanF, hm] at h
        rcases List.mem_cons.mp h with h | h
        · exact Or.inl (h ▸ List.mem_cons_self c0 cs')
        · rcases ih (some c0) cs' c h with h | h
          · exact Or.inl (List.mem_cons_of_mem _ h)
          · exact Or.inr h
      | some n =>
        simp only [subScanF, hm] at h
        rcases List.mem_append.mp h with h | h
        · exact Or.inr h
        · rcases ih _ _ c h with h | h
          · exact Or.inl (List.drop_subset n (c0 :: cs') h)
          · exact Or.inr h

/-- Characters after folding all rules come from the input or some rule's
replacement. -/
theorem foldRules_chars : ∀ (rsl : List Rule) (s : List Char) (c : Char),
    c ∈ rsl.foldl (fun acc r => applyRule r acc) s →
    c ∈ s ∨ ∃ r ∈ rsl, c ∈ r.repl := by
  intro rsl
  induction rsl with
  | nil => intro s c h; exact Or.inl h
  | cons r rsl ih =>
    intro s c h
    rw [List.foldl_cons] at h
    rcases ih (applyRule r s) c h with h | ⟨r', hr', hc⟩
    · rcases subScanF_chars r _ _ _ c h with h | h
      · exact Or.inl h
      · exact Or.inr ⟨r, by simp, h⟩
    · exact Or.inr ⟨r', List.mem_cons_of_mem _ hr', hc⟩

/-- Characters produced by the whitespace collapse come from the input or are
the space separator. -/
theorem collapse_chars : ∀ (cs : List Char) (b : Bool) (c : Char),
    c ∈ collapseWsAux cs b → c ∈ cs ∨ c = ' ' := by
  intro cs
  induction cs with
  | nil => intro b c h; simp [collapseWsAux] at h
  | cons c0 cs' ih =>
    intro b c h
    by_cases hsp : isPySpace c0 = true
    · simp only [collapseWsAux, hsp, if_true] at h
      cases b with
      | true =>
        simp only [if_true] at h
        rcases ih true c h with h | h
        · exact Or.inl (List.mem_cons_of_mem _ h)
        · exact Or.inr h
      | false =>
        simp only [Bool.false_eq_true, if_false] at h
        rcases List.mem_cons.mp h with h | h
        · exact Or.inr h
        · rcases ih true c h with h | h
          · exact Or.inl (List.mem_cons_of_mem _ h)
          · exact Or.inr h
    · simp only [collapseWsAux, hsp, if_false] at h
      rcases List.mem_cons.mp h with h | h
      · exact Or.inl (h ▸ List.mem_cons_self c0 cs')
      · rcases ih false c h with h | h
        · exact Or.inl (List.mem_cons_of_mem _ h)
        · exact Or.inr h

/-- Characters survive stripping only if present in the input. -/
theorem pyStrip_chars (l : List Char) (c : Char) (h : c ∈ pyStrip l) :
    c ∈ l := by
  unfold pyStrip at h
  rw [List.mem_reverse] at h
  have h1 := (List.dropWhile_sublist _).subset h
  rw [List.mem_reverse] at h1
  exact (List.dropWhile_sublist _).subset h1

/-- Tokens produced by the Python split scanner are nonempty. -/
theorem pySplitAux_tok_ne : ∀ (cs acc : List Char),
    ∀ t ∈ pySplitAux cs acc, t ≠ [] := by
  intro cs
  induction cs with
  | nil =>
    intro acc t ht
    cases acc with
    | nil => simp [pySplitAux] at ht
    | cons a as =>
      simp only [pySplitAux, List.mem_singleton] at ht
      subst ht
      simp
  | cons c0 cs' ih =>
    intro acc t ht
    by_cases hsp : isPySpace c0 = true
    · simp only [pySplitAux, hsp, if_true] at ht
      cases acc with
      | nil => exact ih [] t ht
      | cons a as =>
        rcases List.mem_cons.mp ht with ht | ht
        · subst ht; simp
        · exact ih [] t ht
    · simp only [pySplitAux, hsp, if_false] at ht
      exact ih (c0 :: acc) t ht

/-- Characters of tokens produced by the Python split scanner come from the
input or the accumulator and are never whitespace. -/
theorem pySplitAux_tok_chars : ∀ (cs acc : List Char),
    (∀ c ∈ acc, isPySpace c = false) →
    ∀ t ∈ pySplitAux cs acc, ∀ c ∈ t, (c ∈ cs ∨ c ∈ acc) ∧ isPySpace c = false := by
  intro cs
  induction cs with
  | nil =>
    intro acc hacc t ht c hc
    cases acc with
    | nil => simp [pySplitAux] at ht
    | cons a as =>
      simp only [pySplitAux, List.mem_singleton] at ht
      subst ht
      have : c ∈ a :: as := List.mem_reverse.mp hc
      exact ⟨Or.inr this, hacc c this⟩
  | cons c0 cs' ih =>
    intro acc hacc t ht c hc
    by_cases hsp : isPySpace c0 = true
    · simp only [pySplitAux, hsp, if_true] at ht
      cases acc with
      | nil =>
        obtain ⟨hm, hns⟩ := ih [] (by simp) t ht c hc
        rcases hm with hm | hm
        · exact ⟨Or.inl (List.mem_cons_of_mem _ hm), hns⟩
        · simp at hm
      | cons a as =>
        rcases List.mem_cons.mp ht with ht | ht
        · subst ht
          have : c ∈ a :: as := List.mem_reverse.mp hc
          exact ⟨Or.inr this, hacc c this⟩
        · obtain ⟨hm, hns⟩ := ih [] (by simp) t ht c hc
          rcases hm with hm | hm
          · exact ⟨Or.inl (List.mem_cons_of_mem _ hm), hns⟩
          · simp at hm
    · simp only [pySplitAux, hsp, if_false] at ht
      have hacc' : ∀ x ∈ c0 :: acc, isPySpace x = false := by
        intro x hx
        rcases List.mem_cons.mp hx with hx | hx
        · subst hx
          exact Bool.not_eq_true _ ▸ (by simpa using hsp)
        · exact hacc x hx
      obtain ⟨hm, hns⟩ := ih (c0 :: acc) hacc' t ht c hc
      rcases hm with hm | hm
      · exact ⟨Or.inl (List.mem_cons_of_mem _ hm), hns⟩
      · rcases List.mem_cons.mp hm with hm | hm
        · exact ⟨Or.inl (hm ▸ List.mem_cons_self c0 cs'), hns⟩
        · exact ⟨Or.inr hm, hns⟩

/-- The deduplication output is a subset of its input. -/
theorem dedupAux_sub : ∀ (ws seen : List (List Char)),
    ∀ w ∈ dedupAux seen ws, w ∈ ws := by
  intro ws
  induction ws with
  | nil => intro seen w hw; simp [dedupAux] at hw
  | cons w0 ws' ih =>
    intro seen w hw
    rw [dedupAux] at hw
    by_cases hc : w0 ∉ seen ∨ tokIsDigit w0 = true
    · rw [if_pos hc] at hw
      rcases List.mem_cons.mp hw with hw | hw
      · exact hw ▸ List.mem_cons_self w0 ws'
      · exact List.mem_cons_of_mem _ (ih _ w hw)
    · rw [if_neg hc] at hw
      exact List.mem_cons_of_mem _ (ih seen w hw)

/-- Replacement strings of the address rules are lower-case-fixed. -/
theorem addressRules_repl_low :
    ∀ r ∈ addressRules, ∀ c ∈ r.repl, asciiLower c = c := by decide

/-- The token list produced by `normalize_address` is well-formed: nonempty
all-word lower-case-fixed tokens. -/
theorem addr_tokensOk (a : String) :
    tokensOk (dedupWords (pySplit
      ((addressRules.foldl (fun s r => applyRule r s)
        (collapseWs (pyStrip (pyLower a.toList)))).filter isWordOrSpace))) := by
  intro t ht
  have hts : t ∈ pySplit
      ((addressRules.foldl (fun s r => applyRule r s)
        (collapseWs (pyStrip (pyLower a.toList)))).filter isWordOrSpace) :=
    dedupAux_sub _ [] t ht
  have htne : t ≠ [] := pySplitAux_tok_ne _ [] t hts
  have hchars := pySplitAux_tok_chars _ [] (by simp) t hts
  have hword : ∀ c ∈ t, isWordChar c = true := by
    intro c hc
    obtain ⟨hm, hns⟩ := hchars c hc
    rcases hm with hm | hm
    · have := List.mem_filter.mp hm
      have hos : isWordOrSpace c = true := this.2
      simp only [isWordOrSpace, Bool.or_eq_true] at hos
      rcases hos with hos | hos
      · exact hos
      · rw [hos] at hns; cases hns
    · simp at hm
  refine ⟨⟨htne, hword⟩, ?_⟩
  intro c hc
  obtain ⟨hm, _⟩ := hchars c hc
  rcases hm with hm | hm
  · have hm2 : c ∈ addressRules.foldl (fun s r => applyRule r s)
        (collapseWs (pyStrip (pyLower a.toList))) := (List.mem_filter.mp hm).1
    rcases foldRules_chars addressRules _ c hm2 with hm3 | ⟨r, hr, hcr⟩
    · rcases collapse_chars _ false c hm3 with hm4 | hm4
      · have hm5 := pyStrip_chars _ c hm4
        obtain ⟨c0, _, hc0⟩ := List.mem_map.mp hm5
        rw [← hc0]
        exact asciiLower_idem c0
      · subst hm4; decide
    · exact addressRules_repl_low r hr c hcr
  · simp at hm

/-- A match attempt fails immediately when the left boundary fails. -/
theorem matchFrom_not_start (r : Rule) (prev : Option Char) (cs : List Char)
    (h : startOk prev = false) : matchFrom r prev cs = none := by
  unfold matchFrom
  rw [h]
  simp

/-- The last element (with default) of a word string is a word character. -/
theorem word_getLastD : ∀ (u : List Char) (d : Char),
    (∀ c ∈ u, isWordChar c = true) → isWordChar d = true →
    isWordChar (u.getLastD d) = true := by
  intro u
  induction u with
  | nil => intro d _ hd; exact hd
  | cons a l ih =>
    intro d hu hd
    rw [List.getLastD_cons]
    exact ih a (fun c hc => hu c (List.mem_cons_of_mem _ hc)) (hu a (by simp))

/-- The pattern tail `\.?s?\b` matches emptily right before a separator or
the end of the string. -/
theorem tailMatch_sep (optDot optS : Bool) (rest : List Char)
    (hrest : rest = [] ∨ ∃ rs, rest = ' ' :: rs) :
    tailMatch optDot optS rest = some 0 := by
  rcases hrest with h | ⟨rs, h⟩ <;> subst h <;>
    simp [tailMatch, sArm, endOk, show isWordChar ' ' = false by decide]

/-- The pattern tail `\.?s?\b` (with the `s` enabled) consumes a trailing `s`
right before a separator or the end of the string. -/
theorem tailMatch_s (optDot : Bool) (rest : List Char)
    (hrest : rest = [] ∨ ∃ rs, rest = ' ' :: rs) :
    tailMatch optDot true ('s' :: rest) = some 1 := by
  have hend : endOk rest = true := by
    rcases hrest with h | ⟨rs, h⟩ <;> subst h <;>
      simp [endOk, show isWordChar ' ' = false by decide]
  simp [tailMatch, sArm, hend]

/-- The `s?\b` arm fails on a word run that is not a final accepted `s`. -/
theorem sArm_word (optS : Bool) (c0 : Char) (u' rest : List Char) (k : Nat)
    (hc0 : isWordChar c0 = true)
    (hu' : ∀ c ∈ u', isWordChar c = true)
    (_hrest : rest = [] ∨ ∃ rs, rest = ' ' :: rs)
    (hnots : ¬(optS = true ∧ c0 = 's' ∧ u' = [])) :
    sArm optS (c0 :: (u' ++ rest)) k false = none := by
  have hc0end : endOk (c0 :: (u' ++ rest)) = false := by
    simp [endOk, hc0]
  by_cases hcs : c0 = 's'
  · subst hcs
    have hcond : (optS && endOk (u' ++ rest)) = false := by
      cases u' with
      | nil =>
        cases hS : optS with
        | false => simp
        | true => exact absurd ⟨rfl, rfl, rfl⟩ (hS ▸ hnots)
      | cons d u'' =>
        have hd : isWordChar d = true := hu' d (by simp)
        simp [endOk, hd]
    simp [sArm, hcond, hc0end]
  · unfold sArm
    rw [hc0end]
    have harm : (match c0 :: (u' ++ rest) with
        | 's' :: v => if optS && endOk v then some (k + 1) else none
        | _ => none) = (none : Option Nat) := by
      split
      · rename_i v heq
        have : c0 = 's' := (List.cons.injEq _ _ _ _ ▸ heq).1
        exact absurd this hcs
      · rfl
    rw [harm]
    simp

/-- The pattern tail fails on a remaining word run (that is not a final `s`
accepted by the rule). -/
theorem tailMatch_word (optDot optS : Bool) (c0 : Char) (u' rest : List Char)
    (hc0 : isWordChar c0 = true)
    (hu' : ∀ c ∈ u', isWordChar c = true)
    (hrest : rest = [] ∨ ∃ rs, rest = ' ' :: rs)
    (hnots : ¬(optS = true ∧ c0 = 's' ∧ u' = [])) :
    tailMatch optDot optS (c0 :: (u' ++ rest)) = none := by
  have hdot : c0 ≠ '.' := by
    intro h; rw [h] at hc0; exact absurd hc0 (by decide)
  unfold tailMatch
  have harm : (match c0 :: (u' ++ rest) with
      | '.' :: v => if optDot then sArm optS v 1 true else none
      | _ => none) = (none : Option Nat) := by
    split
    · rename_i v heq
      have : c0 = '.' := (List.cons.injEq _ _ _ _ ▸ heq).1
      exact absurd this hdot
    · rfl
  rw [harm, Option.none_orElse]
  exact sArm_word optS c0 u' rest 0 hc0 hu' hrest hnots

/-- Against a word token followed by a separator (or the end), a rule's full
pattern matches exactly when the token is the rule's trigger, consuming
exactly the token. -/
theorem matchFrom_token (r : Rule) (hr : ruleWf r) (t rest : List Char)
    (prev : Option Char) (ht : t ≠ []) (hw : ∀ c ∈ t, isWordChar c = true)
    (hst : startOk prev = true)
    (hrest : rest = [] ∨ ∃ rs, rest = ' ' :: rs) :
    matchFrom r prev (t ++ rest) =
      if t = r.lit ∨ (r.optS = true ∧ t = r.lit ++ ['s']) then some t.length
      else none := by
  obtain ⟨hlne, hlw, _, _⟩ := hr
  by_cases htok : t = r.lit ∨ (r.optS = true ∧ t = r.lit ++ ['s'])
  · rw [if_pos htok]
    rcases htok with heq | ⟨hs, heq⟩
    · subst heq
      unfold matchFrom
      have hpre : r.lit.isPrefixOf (r.lit ++ rest) = true :=
        List.isPrefixOf_iff_prefix.mpr (List.prefix_append _ _)
      simp only [hst, hpre, Bool.and_self, if_true]
      rw [List.drop_left, tailMatch_sep r.optDot r.optS rest hrest]
      simp
    · subst heq
      unfold matchFrom
      have hpre : r.lit.isPrefixOf ((r.lit ++ ['s']) ++ rest) = true := by
        rw [List.append_assoc]
        exact List.isPrefixOf_iff_prefix.mpr (List.prefix_append _ _)
      simp only [hst, hpre, Bool.and_self, if_true]
      have hdrop : ((r.lit ++ ['s']) ++ rest).drop r.lit.length = 's' :: rest := by
        rw [List.append_assoc, List.drop_left]
        rfl
      rw [hdrop, hs, tailMatch_s r.optDot rest hrest]
      simp [List.length_append]
  · rw [if_neg htok]
    cases hpre : r.lit.isPrefixOf (t ++ rest) with
    | false =>
      unfold matchFrom
      rw [hst, hpre]
      simp
    | true =>
      have hpre' : r.lit <+: t ++ rest := List.isPrefixOf_iff_prefix.mp hpre
      have hlit_t : r.lit <+: t := by
        by_cases hle : r.lit.length ≤ t.length
        · exact List.prefix_of_prefix_length_le hpre' (List.prefix_append t rest) hle
        · exfalso
          have ht_lit : t <+: r.lit :=
            List.prefix_of_prefix_length_le (List.prefix_append t rest) hpre'
              (le_of_lt (lt_of_not_le hle))
          obtain ⟨v, hv⟩ := ht_lit
          have hvne : v ≠ [] := by
            intro hvnil
            subst hvnil
            rw [List.append_nil] at hv
            exact hle (by rw [← hv])
          have hvpre : v <+: rest := by
            have htv : t ++ v <+: t ++ rest := by
              rw [← hv] at hpre'
              exact hpre'
            exact (List.prefix_append_right_inj t).mp htv
          match v, hvne, hvpre, hv with
          | c :: v', _, hvpre, hv =>
            have hcw : isWordChar c = true := by
              refine hlw c ?_
              rw [← hv]
              exact List.mem_append_right _ (by simp)
            rcases hrest with h | ⟨rs, h⟩
            · subst h
              rw [List.prefix_nil] at hvpre
              cases hvpre
            · subst h
              obtain ⟨hc, _⟩ := List.cons_prefix_cons.mp hvpre
              rw [hc] at hcw
              exact absurd hcw (by decide)
      obtain ⟨u, hu⟩ := hlit_t
      have hune : u ≠ [] := by
        intro h
        subst h
        rw [List.append_nil] at hu
        exact htok (Or.inl hu.symm)
      match u, hune, hu with
      | c0 :: u', _, hu =>
        have hc0 : isWordChar c0 = true := by
          refine hw c0 ?_
          rw [← hu]
          exact List.mem_append_right _ (by simp)
        have hu'w : ∀ c ∈ u', isWordChar c = true := by
          intro c hc
          refine hw c ?_
          rw [← hu]
          exact List.mem_append_right _ (List.mem_cons_of_mem _ hc)
        unfold matchFrom
        simp only [hst, hpre, Bool.and_self, if_true]
        have hdrop : (t ++ rest).drop r.lit.length = c0 :: (u' ++ rest) := by
          rw [← hu, List.append_assoc, List.drop_left]
          rfl
        rw [hdrop, tailMatch_word r.optDot r.optS c0 u' rest hc0 hu'w hrest ?hnots]
        case hnots =>
          intro ⟨hS, hcs, hunil⟩
          refine htok (Or.inr ⟨hS, ?_⟩)
          rw [← hu, hcs, hunil]

/-- The scanner copies a word run when the boundary context is a word
character (no match can start inside a word). -/
theorem subScanF_copy (r : Rule) : ∀ (u : List Char) (fuel : Nat) (p : Char)
    (rest : List Char), (∀ c ∈ u, isWordChar c = true) → isWordChar p = true →
    subScanF r (u.length + fuel) (some p) (u ++ rest) =
      u ++ subScanF r fuel (some (u.getLastD p)) rest := by
  intro u
  induction u with
  | nil =>
    intro fuel p rest _ _
    simp [List.getLastD]
  | cons c u' ih =>
    intro fuel p rest hu hp
    have hc : isWordChar c = true := hu c (by simp)
    have hmf : matchFrom r (some p) (c :: (u' ++ rest)) = none :=
      matchFrom_not_start r (some p) _ (by simp [startOk, hp])
    have hlen : (c :: u').length + fuel = (u'.length + fuel) + 1 := by
      simp [List.length_cons]
      omega
    rw [hlen]
    simp only [List.cons_append, subScanF, List.append_eq, hmf]
    rw [ih fuel c rest (fun x hx => hu x (List.mem_cons_of_mem _ hx)) hc]
    rw [List.getLastD_cons]

/-- The scanner maps the empty string to the empty string. -/
theorem subScanF_nil (r : Rule) (fuel : Nat) (prev : Option Char) :
    subScanF r fuel prev [] = [] := by
  cases fuel <;> rfl

/-- The `re.sub` scan of one rule over an intercalation of word tokens acts
token-wise: each token equal to the rule's trigger is replaced, all others
are copied. -/
theorem subScanF_tokens (r : Rule) (hr : ruleWf r) :
    ∀ (ts : List (List Char)) (prev : Option Char) (fuel : Nat),
    (∀ t ∈ ts, t ≠ [] ∧ ∀ c ∈ t, isWordChar c = true) →
    startOk prev = true →
    (List.intercalate [' '] ts).length ≤ fuel →
    subScanF r fuel prev (List.intercalate [' '] ts) =
      List.intercalate [' '] (ts.map (tokApply r)) := by
  intro ts
  induction ts with
  | nil =>
    intro prev fuel _ _ _
    simp only [List.intercalate, List.map_nil, List.intersperse, List.flatten]
    exact subScanF_nil r fuel prev
  | cons t ts ih =>
    intro prev fuel h hst hfuel
    obtain ⟨ht, hw⟩ := h t (by simp)
    cases ts with
    | nil =>
      rw [ic_singleton] at hfuel ⊢
      rw [List.map_singleton, ic_singleton]
      by_cases htok : t = r.lit ∨ (r.optS = true ∧ t = r.lit ++ ['s'])
      · have hmf := matchFrom_token r hr t [] prev ht hw hst (Or.inl rfl)
        rw [List.append_nil, if_pos htok] at hmf
        match t, ht, hw, hmf, hfuel with
        | c :: t'', _, hw, hmf, hfuel =>
          cases fuel with
          | zero => simp at hfuel
          | succ f =>
            simp only [subScanF, hmf]
            rw [List.drop_length, subScanF_nil, List.append_nil]
            rw [tokApply, if_pos htok]
      · have hmf := matchFrom_token r hr t [] prev ht hw hst (Or.inl rfl)
        rw [List.append_nil, if_neg htok] at hmf
        match t, ht, hw, hmf, hfuel with
        | c :: t'', _, hw, hmf, hfuel =>
          cases fuel with
          | zero => simp at hfuel
          | succ f =>
            simp only [subScanF, hmf]
            have hf2 : t''.length ≤ f := by
              simp only [List.length_cons] at hfuel
              omega
            have hcopy := subScanF_copy r t'' (f - t''.length) c []
              (fun x hx => hw x (List.mem_cons_of_mem _ hx)) (hw c (by simp))
            rw [show t''.length + (f - t''.length) = f from by omega,
              List.append_nil] at hcopy
            rw [hcopy, subScanF_nil, List.append_nil]
            rw [tokApply, if_neg htok]
    | cons t' ts' =>
      rw [ic_cons₂] at hfuel ⊢
      rw [List.map_cons, List.map_cons, ic_cons₂, ← List.map_cons (tokApply r)]
      have hsub : ∀ u ∈ t' :: ts', u ≠ [] ∧ ∀ c ∈ u, isWordChar c = true :=
        fun u hu => h u (List.mem_cons_of_mem _ hu)
      have hlen : t.length + (1 + (List.intercalate [' '] (t' :: ts')).length) ≤ fuel := by
        simp only [List.length_append, List.length_cons] at hfuel
        omega
      by_cases htok : t = r.lit ∨ (r.optS = true ∧ t = r.lit ++ ['s'])
      · have hmf := matchFrom_token r hr t (' ' :: List.intercalate [' '] (t' :: ts'))
          prev ht hw hst (Or.inr ⟨_, rfl⟩)
        rw [if_pos htok] at hmf
        match t, ht, hw, hmf, hlen with
        | c :: t'', _, hw, hmf, hlen =>
          cases fuel with
          | zero => omega
          | succ f =>
            rw [List.cons_append] at hmf
            simp only [List.cons_append, subScanF, List.append_eq, hmf]
            have htake : (c :: (t'' ++ ' ' :: List.intercalate [' '] (t' :: ts'))).take
                (c :: t'').length = c :: t'' := by
              rw [← List.cons_append]
              exact List.take_left _ _
            have hdrop : (c :: (t'' ++ ' ' :: List.intercalate [' '] (t' :: ts'))).drop
                (c :: t'').length = ' ' :: List.intercalate [' '] (t' :: ts') := by
              rw [← List.cons_append]
              exact List.drop_left _ _
            rw [htake, hdrop, List.getLast?_cons]
            have hlast : isWordChar (t''.getLast?.getD c) = true := by
              rw [← List.getLastD_eq_getLast?]
              exact word_getLastD t'' c (fun x hx => hw x (List.mem_cons_of_mem _ hx))
                (hw c (by simp))
            cases f with
            | zero => simp only [List.length_cons] at hlen; omega
            | succ f2 =>
              simp only [subScanF,
                matchFrom_not_start r (some (t''.getLast?.getD c)) _
                  (by simp [startOk, hlast])]
              rw [ih (some ' ') f2 hsub (by decide)
                (by simp only [List.length_cons] at hlen; omega)]
              rw [tokApply, if_pos htok]
      · have hmf := matchFrom_token r hr t (' ' :: List.intercalate [' '] (t' :: ts'))
          prev ht hw hst (Or.inr ⟨_, rfl⟩)
        rw [if_neg htok] at hmf
        match t, ht, hw, hmf, hlen with
        | c :: t'', _, hw, hmf, hlen =>
          cases fuel with
          | zero => omega
          | succ f =>
            rw [List.cons_append] at hmf
            simp only [List.cons_append, subScanF, List.append_eq, hmf]
            have hf2 : t''.length ≤ f := by
              simp only [List.length_cons] at hlen
              omega
            have hcopy := subScanF_copy r t'' (f - t''.length) c
              (' ' :: List.intercalate [' '] (t' :: ts'))
              (fun x hx => hw x (List.mem_cons_of_mem _ hx)) (hw c (by simp))
            rw [show t''.length + (f - t''.length) = f from by omega] at hcopy
            have hlast : isWordChar (t''.getLastD c) = true :=
              word_getLastD t'' c (fun x hx => hw x (List.mem_cons_of_mem _ hx))
                (hw c (by simp))
            rw [List.getLastD_eq_getLast?] at hlast hcopy
            rw [hcopy]
            cases hf3 : f - t''.length with
            | zero => simp only [List.length_cons] at hlen; omega
            | succ f2 =>
              simp only [subScanF,
                matchFrom_not_start r (some (t''.getLast?.getD c)) _
                  (by simp [startOk, hlast])]
              rw [ih (some ' ') f2 hsub (by decide)
                (by simp only [List.length_cons] at hlen; omega)]
              rw [tokApply, if_neg htok]
              simp

/-- The token action of a well-formed rule preserves token well-formedness. -/
theorem tokApply_wf (r : Rule) (hr : ruleWf r) (t : List Char) (ht : t ≠ [])
    (hw : ∀ c ∈ t, isWordChar c = true) :
    tokApply r t ≠ [] ∧ ∀ c ∈ tokApply r t, isWordChar c = true := by
  obtain ⟨_, _, hrne, hrw⟩ := hr
  unfold tokApply
  split
  · exact ⟨hrne, hrw⟩
  · exact ⟨ht, hw⟩

/-- One `re.sub` call acts token-wise on an intercalation of word tokens. -/
theorem applyRule_tokens (r : Rule) (hr : ruleWf r) (ts : List (List Char))
    (h : ∀ t ∈ ts, t ≠ [] ∧ ∀ c ∈ t, isWordChar c = true) :
    applyRule r (List.intercalate [' '] ts) =
      List.intercalate [' '] (ts.map (tokApply r)) :=
  subScanF_tokens r hr ts none _ h rfl (le_refl _)

/-- The full rule fold acts token-wise on an intercalation of word tokens. -/
theorem foldRules_tokens : ∀ (rsl : List Rule), (∀ r ∈ rsl, ruleWf r) →
    ∀ (ts : List (List Char)), (∀ t ∈ ts, t ≠ [] ∧ ∀ c ∈ t, isWordChar c = true) →
    rsl.foldl (fun s r => applyRule r s) (List.intercalate [' '] ts) =
      List.intercalate [' '] (ts.map (foldTok rsl)) := by
  intro rsl
  induction rsl with
  | nil =>
    intro _ ts _
    have hmap : ts.map (foldTok []) = ts := by
      have hid : ∀ t ∈ ts, foldTok [] t = t := fun t _ => rfl
      rw [List.map_congr_left hid, List.map_id']
    rw [List.foldl_nil, hmap]
  | cons r rsl ih =>
    intro hwf ts h
    rw [List.foldl_cons, applyRule_tokens r (hwf r (by simp)) ts h]
    rw [ih (fun r' hr' => hwf r' (List.mem_cons_of_mem _ hr'))
      (ts.map (tokApply r)) ?hts]
    case hts =>
      intro t' ht'
      obtain ⟨t, htmem, htt⟩ := List.mem_map.mp ht'
      obtain ⟨h1, h2⟩ := h t htmem
      exact htt ▸ tokApply_wf r (hwf r (by simp)) t h1 h2
    rw [List.map_map]
    congr 1

/-- A token fixed by every rule of a list is fixed by the fold. -/
theorem foldTok_id : ∀ (rsl : List Rule) (t : List Char),
    (∀ g ∈ rsl, tokApply g t = t) → foldTok rsl t = t := by
  intro rsl
  induction rsl with
  | nil => intro t _; rfl
  | cons g rsl ih =>
    intro t h
    unfold foldTok
    rw [List.foldl_cons, h g (by simp)]
    exact ih t (fun g' hg' => h g' (List.mem_cons_of_mem _ hg'))

/-- The fold of the rule token maps either fixes a token or ends in some
rule's replacement processed by a suffix of the rules. -/
theorem foldTok_cases : ∀ (rsl : List Rule) (t : List Char),
    foldTok rsl t = t ∨
      ∃ r ∈ rsl, ∃ rsl', rsl' <:+ rsl ∧ foldTok rsl t = foldTok rsl' r.repl := by
  intro rsl
  induction rsl with
  | nil => intro t; exact Or.inl rfl
  | cons g rsl ih =>
    intro t
    have hstep : foldTok (g :: rsl) t = foldTok rsl (tokApply g t) := by
      simp [foldTok]
    by_cases hg : tokApply g t = t
    · rw [hstep, hg]
      rcases ih t with h | ⟨r, hr, rsl', hsuf, heq⟩
      · exact Or.inl h
      · exact Or.inr ⟨r, List.mem_cons_of_mem _ hr, rsl',
          hsuf.trans (List.suffix_cons g rsl), heq⟩
    · have hrepl : tokApply g t = g.repl := by
        unfold tokApply at hg ⊢
        split at hg
        · split
          · rfl
          · rename_i hcond hncond
            exact absurd hcond hncond
        · exact absurd rfl hg
      exact Or.inr ⟨g, by simp, rsl, List.suffix_cons g rsl,
        by rw [hstep, hrepl]⟩

/-- Every rule's replacement is fixed by every rule's token action. -/
theorem addressRules_repl_fixed :
    ∀ r ∈ addressRules, ∀ g ∈ addressRules, tokApply g r.repl = r.repl := by
  decide

/-- The composite token action of the address rules is idempotent. -/
theorem foldTok_idem (t : List Char) :
    foldTok addressRules (foldTok addressRules t) = foldTok addressRules t := by
  rcases foldTok_cases addressRules t with h | ⟨r, hr, rsl', hsuf, heq⟩
  · rw [h]
    exact h
  · have hfix : foldTok rsl' r.repl = r.repl :=
      foldTok_id rsl' r.repl
        (fun g hg => addressRules_repl_fixed r hr g (hsuf.subset hg))
    rw [heq, hfix]
    exact foldTok_id addressRules r.repl
      (fun g hg => addressRules_repl_fixed r hr g hg)

/-- The deduplication loop is idempotent (from any `seen` state). -/
theorem dedupAux_idem : ∀ (ws seen : List (List Char)),
    dedupAux seen (dedupAux seen ws) = dedupAux seen ws := by
  intro ws
  induction ws with
  | nil => intro seen; rfl
  | cons w ws ih =>
    intro seen
    by_cases hc : w ∉ seen ∨ tokIsDigit w = true
    · rw [dedupAux, if_pos hc, dedupAux, if_pos hc]
      congr 1
      exact ih _
    · rw [dedupAux, if_neg hc]
      exact ih seen

/-- All address rules are well-formed. -/
theorem addressRulesWf : ∀ r ∈ addressRules, ruleWf r := by
  unfold ruleWf
  decide

/-- The composite token action preserves token well-formedness. -/
theorem foldTok_wf : ∀ (rsl : List Rule), (∀ r ∈ rsl, ruleWf r) →
    ∀ (t : List Char), t ≠ [] → (∀ c ∈ t, isWordChar c = true) →
    foldTok rsl t ≠ [] ∧ ∀ c ∈ foldTok rsl t, isWordChar c = true := by
  intro rsl
  induction rsl with
  | nil => intro _ t ht hw; exact ⟨ht, hw⟩
  | cons r rsl ih =>
    intro hwf t ht hw
    have hstep : foldTok (r :: rsl) t = foldTok rsl (tokApply r t) := by
      simp [foldTok]
    obtain ⟨h1, h2⟩ := tokApply_wf r (hwf r (by simp)) t ht hw
    rw [hstep]
    exact ih (fun r' hr' => hwf r' (List.mem_cons_of_mem _ hr')) _ h1 h2

/-- Characters of the composite token action come from the token or some
rule's replacement. -/
theorem foldTok_chars : ∀ (rsl : List Rule) (t : List Char) (c : Char),
    c ∈ foldTok rsl t → c ∈ t ∨ ∃ r ∈ rsl, c ∈ r.repl := by
  intro rsl
  induction rsl with
  | nil => intro t c h; exact Or.inl h
  | cons r rsl ih =>
    intro t c h
    have hstep : foldTok (r :: rsl) t = foldTok rsl (tokApply r t) := by
      simp [foldTok]
    rw [hstep] at h
    rcases ih _ c h with h | ⟨r', hr', hc⟩
    · unfold tokApply at h
      split at h
      · exact Or.inr ⟨r, by simp, h⟩
      · exact Or.inl h
    · exact Or.inr ⟨r', List.mem_cons_of_mem _ hr', hc⟩

/-- Normal form of `normalize_address` on an intercalation of well-formed
tokens: apply the composite token action and deduplicate. -/
theorem addrNF (ts : List (List Char)) (h : tokensOk ts) :
    normalize_address (some ⟨List.intercalate [' '] ts⟩) =
      ⟨List.intercalate [' ']
        (dedupWords (ts.map (foldTok addressRules)))⟩ := by
  have hwf : ∀ t ∈ ts, t ≠ [] ∧ ∀ c ∈ t, isWordChar c = true :=
    fun t ht => (h t ht).1
  have hlow : ∀ t ∈ ts, ∀ c ∈ t, asciiLower c = c := fun t ht => (h t ht).2
  have h0 : pyLower (List.intercalate [' '] ts) = List.intercalate [' '] ts := by
    apply pyLower_fix
    intro c hc
    rcases mem_ic ts c hc with hc | ⟨t, ht, hct⟩
    · subst hc; decide
    · exact hlow t ht c hct
  have h1 : pyStrip (List.intercalate [' '] ts) = List.intercalate [' '] ts := by
    apply pyStrip_fix
    · intro c hc
      exact word_not_space c (ic_head_word ts hwf c hc)
    · intro c hc
      exact word_not_space c (ic_getLast_word ts hwf c hc)
  have h2 : collapseWs (List.intercalate [' '] ts) = List.intercalate [' '] ts :=
    collapse_ic ts hwf
  have h3 := foldRules_tokens addressRules addressRulesWf ts hwf
  have hwf' : ∀ t ∈ ts.map (foldTok addressRules),
      t ≠ [] ∧ ∀ c ∈ t, isWordChar c = true := by
    intro t' ht'
    obtain ⟨t, htmem, htt⟩ := List.mem_map.mp ht'
    obtain ⟨hn, hwd⟩ := hwf t htmem
    exact htt ▸ foldTok_wf addressRules addressRulesWf t hn hwd
  have h4 : (List.intercalate [' '] (ts.map (foldTok addressRules))).filter
      isWordOrSpace = List.intercalate [' '] (ts.map (foldTok addressRules)) :=
    filter_ic _ hwf'
  have h5 : pySplit (List.intercalate [' '] (ts.map (foldTok addressRules))) =
      ts.map (foldTok addressRules) := pySplit_ic _ hwf'
  calc normalize_address (some ⟨List.intercalate [' '] ts⟩)
      = ⟨List.intercalate [' '] (dedupWords (pySplit
          ((addressRules.foldl (fun s r => applyRule r s)
            (collapseWs (pyStrip (pyLower (List.intercalate [' '] ts))))).filter
            isWordOrSpace)))⟩ := rfl
    _ = ⟨List.intercalate [' ']
          (dedupWords (ts.map (foldTok addressRules)))⟩ := by
        rw [h0, h1, h2, h3, h4, h5]

/-- The tokens of the normal form stay well-formed after the token action and
deduplication. -/
theorem tokensOk_map_fold (ts : List (List Char)) (h : tokensOk ts) :
    tokensOk (dedupWords (ts.map (foldTok addressRules))) := by
  intro t ht
  have ht2 : t ∈ ts.map (foldTok addressRules) := dedupAux_sub _ [] t ht
  obtain ⟨t0, ht0, htt⟩ := List.mem_map.mp ht2
  obtain ⟨⟨hne, hword⟩, hlow⟩ := h t0 ht0
  subst htt
  refine ⟨foldTok_wf addressRules addressRulesWf t0 hne hword, ?_⟩
  intro c hc
  rcases foldTok_chars addressRules t0 c hc with hc | ⟨r, hr, hc⟩
  · exact hlow c hc
  · exact addressRules_repl_low r hr c hc

/-- C3 amended: a second application of `normalize_address` is a fixed point;
re-normalizing an already re-normalized address changes nothing. -/
theorem norm_address_eventually_idem (x : String) :
    normalize_address (some (normalize_address (some (normalize_address (some x))))) =
      normalize_address (some (normalize_address (some x))) := by
  have hok1 : tokensOk (dedupWords (pySplit
      ((addressRules.foldl (fun s r => applyRule r s)
        (collapseWs (pyStrip (pyLower x.toList)))).filter isWordOrSpace))) :=
    addr_tokensOk x
  have hx1 : normalize_address (some x) =
      ⟨List.intercalate [' '] (dedupWords (pySplit
        ((addressRules.foldl (fun s r => applyRule r s)
          (collapseWs (pyStrip (pyLower x.toList)))).filter isWordOrSpace)))⟩ := rfl
  rw [hx1, addrNF _ hok1, addrNF _ (tokensOk_map_fold _ hok1)]
  have hmap : (dedupWords ((dedupWords (pySplit
      ((addressRules.foldl (fun s r => applyRule r s)
        (collapseWs (pyStrip (pyLower x.toList)))).filter
        isWordOrSpace))).map (foldTok addressRules))).map (foldTok addressRules) =
      dedupWords ((dedupWords (pySplit
      ((addressRules.foldl (fun s r => applyRule r s)
        (collapseWs (pyStrip (pyLower x.toList)))).filter
        isWordOrSpace))).map (foldTok addressRules)) := by
    have hfix : ∀ t ∈ dedupWords ((dedupWords (pySplit
        ((addressRules.foldl (fun s r => applyRule r s)
          (collapseWs (pyStrip (pyLower x.toList)))).filter
          isWordOrSpace))).map (foldTok addressRules)),
        foldTok addressRules t = t := by
      intro t ht
      have ht2 := dedupAux_sub _ [] t ht
      obtain ⟨t0, _, htt⟩ := List.mem_map.mp ht2
      rw [← htt]
      exact foldTok_idem t0
    rw [List.map_congr_left hfix, List.map_id']
  rw [hmap]
  simp only [dedupWords]
  rw [dedupAux_idem _ []]

/-- C3 counterexample: `normalize_address` is not idempotent.  Punctuation is
removed only after abbreviation expansion, so `"s.t"` normalizes to `"st"`,
which a second application expands to `"street"`. -/
theorem norm_address_idem_cex :
    normalize_address (some (normalize_address (some "s.t"))) ≠
      normalize_address (some "s.t") := by decide

/-- C9: the token deduplication keeps every non-numeric token only at its
first left-to-right occurrence and always keeps purely-numeric tokens, and
`normalize_address "1 Main 1 Main" = "1 main 1"`. -/
theorem dedup_tokens_spec :
    (∀ ws : List (List Char), dedupWords ws = dedupSpec [] ws) ∧
    normalize_address (some "1 Main 1 Main") = "1 main 1" :=
  ⟨fun ws => dedupAux_eq_spec ws [] [] (by simp), by decide⟩

end PropertyDashboard
